import Mathlib

/-!
Verification of the core of the nudl firmware downloader against its
natural-language specification.  The definitions below are shallow
embeddings of the Rust source files:

  * src/client.rs  — naming-scheme parser, wire-file conversion,
    ranged-download status handling,
  * src/split.rs   — split-zip offset repair (fix_offsets),
  * src/file.rs    — JoinedFile and MemoryCowFile,
  * src/download.rs — planner (compute_initial_state).

Byte streams are modelled as lists of naturals, machine integers as
Nat / Int with explicit bounds where overflow matters, and fallible
operations return Except.
-/

namespace Nudl

/-! ## String helpers (ASCII; Rust byte lengths coincide with char counts) -/

/-- Zero-pad the decimal rendering of a number to a given width, as the
Rust format string with a zero fill and a width does. -/
def padNat (n width : Nat) : String :=
  let s := toString n
  ⟨List.replicate (width - s.length) '0' ++ s.data⟩

/-- Length of a string in characters (equals Rust's byte length on ASCII). -/
def strLen (s : String) : Nat :=
  s.data.length

/-- Rust str::starts_with. -/
def strStartsWith (s p : String) : Bool :=
  p.data.isPrefixOf s.data

/-- Rust str::ends_with. -/
def strEndsWith (s p : String) : Bool :=
  p.data.isSuffixOf s.data

/-- Rust str::rsplit_once: split around the last occurrence of the
pattern, returning the part before and the part after it. -/
def rsplitOnce (s pat : String) : Option (String × String) :=
  let occs := (List.range (s.data.length + 1)).filter
    (fun i => pat.data.isPrefixOf (s.data.drop i))
  match occs.getLast? with
  | some i => some (⟨s.data.take i⟩, ⟨s.data.drop (i + pat.data.length)⟩)
  | none => none

/-- Rust str::strip_suffix. -/
def stripSuffix? (s pat : String) : Option String :=
  if pat.data.isSuffixOf s.data then
    some ⟨s.data.take (s.data.length - pat.data.length)⟩
  else
    none

/-! ## client.rs: error type and ZipNamingScheme -/

/-- Errors of the API client (client.rs, enum Error).  Transport and
model errors are collapsed into requestError; they carry no data the
claims depend on. -/
inductive ClientError where
  | alreadyComplete
  | badHttpResponse (expected got : Nat)
  | badFieldLength (field : String) (len : Nat)
  | badFieldValue (field value : String)
  | unknownZipNaming (first last : String) (count : Nat)
  | requestError
deriving DecidableEq

/-- client.rs, enum ZipNamingScheme. -/
inductive ZipNamingScheme where
  | notZip
  | notSplit (name : String)
  | legacy (pre suf : String) (digits : Nat)
  | standard (baseName : String) (count : Nat)
deriving DecidableEq

/-- client.rs, ZipNamingScheme::parse. -/
def zipNamingParse (first last : String) (count : Nat) :
    Except ClientError ZipNamingScheme :=
  if count = 0 then
    .ok .notZip
  else if count = 1 then
    if first = last then
      .ok (.notSplit first)
    else
      .error (.unknownZipNaming first last count)
  else
    let digits := max (toString count).length 3
    let countStr := padNat count digits
    let legacyResult : Option ZipNamingScheme :=
      match rsplitOnce last countStr with
      | some (pre, suf) =>
        if strLen pre + strLen suf = strLen first
            ∧ strStartsWith first pre ∧ strEndsWith first suf then
          some (.legacy pre suf digits)
        else
          none
      | none => none
    match legacyResult with
    | some scheme => .ok scheme
    | none =>
      let lastExt := ".z" ++ padNat (count - 1) 2
      let firstNoExt := stripSuffix? first ".zip"
      let lastNoExt := stripSuffix? last lastExt
      match firstNoExt with
      | some baseName =>
        if firstNoExt = lastNoExt then
          .ok (.standard baseName count)
        else
          .error (.unknownZipNaming first last count)
      | none => .error (.unknownZipNaming first last count)

/-- client.rs, ZipNamingScheme::name. -/
def zipNamingName (scheme : ZipNamingScheme) (index : Nat) : String :=
  match scheme with
  | .notZip => ""
  | .notSplit name => name
  | .legacy pre suf digits => pre ++ padNat (index + 1) digits ++ suf
  | .standard baseName count =>
    if index = count - 1 then
      baseName ++ ".zip"
    else
      baseName ++ ".z" ++ padNat (index + 1) 2

/-! ## client.rs: wire-file parsing (FileInfo::try_from) -/

/-- Digit value of an ASCII character. -/
def digitVal (c : Char) : Option Nat :=
  if c.isDigit then some (c.toNat - 48) else none

/-- Accumulating decimal parser over a digit list. -/
def parseDigitsAux (acc : Nat) : List Char → Option Nat
  | [] => some acc
  | c :: cs =>
    match digitVal c with
    | some d => parseDigitsAux (acc * 10 + d) cs
    | none => none

/-- Parse a non-empty all-digit string. -/
def parseDigits (cs : List Char) : Option Nat :=
  if cs.isEmpty then none else parseDigitsAux 0 cs

/-- Rust signed integer FromStr: optional sign, digits, range check. -/
def parseSigned (lo hi : Int) (s : String) : Option Int :=
  let (sign, rest) : Int × List Char :=
    match s.data with
    | '+' :: cs => (1, cs)
    | '-' :: cs => (-1, cs)
    | cs => (1, cs)
  match parseDigits rest with
  | some n =>
    let v : Int := sign * n
    if lo ≤ v ∧ v ≤ hi then some v else none
  | none => none

/-- Rust unsigned integer FromStr: optional plus sign, digits, range check. -/
def parseUnsigned (hi : Nat) (s : String) : Option Nat :=
  let rest : List Char :=
    match s.data with
    | '+' :: cs => cs
    | cs => cs
  match parseDigits rest with
  | some n => if n ≤ hi then some n else none
  | none => none

def parseI32 (s : String) : Option Int := parseSigned (-(2 ^ 31)) (2 ^ 31 - 1) s

def parseI64 (s : String) : Option Int := parseSigned (-(2 ^ 63)) (2 ^ 63 - 1) s

def parseU32 (s : String) : Option Nat := parseUnsigned (2 ^ 32 - 1) s

/-- Rust cast from i64 to i32: keep the low 32 bits, two's complement. -/
def i64ToI32 (x : Int) : Int :=
  (x + 2 ^ 31).emod (2 ^ 32) - 2 ^ 31

/-- Rust cast from i32 to u32: reinterpret the 32-bit pattern as unsigned. -/
def i32ToU32 (x : Int) : Int :=
  x.emod (2 ^ 32)

/-- model.rs, struct File: the wire representation of one firmware file.
All fields arrive as strings. -/
structure WireFile where
  destPath : String
  fileCrc : String
  fileName : String
  filePath : String
  fileSize : String
  version : String
  zipFileCnt : String
  zipFileFirstName : String
  zipFileLastName : String
  zipFileSize : String
deriving DecidableEq

/-- client.rs, struct FileInfo. -/
structure FileInfo where
  crc32 : Nat
  directory : Option String
  name : String
  size : Nat
  serverPath : String
  version : String
  zipCount : Nat
  zipSize : Nat
  zipNaming : ZipNamingScheme
deriving DecidableEq

/-- client.rs, impl TryFrom of File for FileInfo. -/
def fileInfoTryFrom (file : WireFile) : Except ClientError FileInfo :=
  match parseI32 file.fileCrc with
  | none => .error (.badFieldValue "file_crc" file.fileCrc)
  | some crc32 =>
  match parseI64 file.fileSize with
  | none => .error (.badFieldValue "file_size" file.fileSize)
  | some size0 =>
  match parseU32 file.zipFileCnt with
  | none => .error (.badFieldValue "zip_file_cnt" file.zipFileCnt)
  | some zipCount =>
  match parseI64 file.zipFileSize with
  | none => .error (.badFieldValue "zip_file_size" file.zipFileSize)
  | some zipSize0 =>
  let size := if size0 < 0 then i32ToU32 (i64ToI32 size0) else size0
  let zipSize := if zipSize0 < 0 then i32ToU32 (i64ToI32 zipSize0) else zipSize0
  match zipNamingParse file.zipFileFirstName file.zipFileLastName zipCount with
  | .error e => .error e
  | .ok zipNaming =>
    .ok {
      crc32 := (i32ToU32 crc32).toNat
      directory := if file.destPath = "" then none else some file.destPath
      name := file.fileName
      size := size.toNat
      serverPath := file.filePath
      version := file.version
      zipCount := zipCount
      zipSize := zipSize.toNat
      zipNaming := zipNaming }

/-- Wire file used to witness the C8 theorem. -/
def exWireC8 : WireFile :=
  { destPath := "", fileCrc := "0", fileName := "a", filePath := "",
    fileSize := "-1", version := "", zipFileCnt := "0",
    zipFileFirstName := "", zipFileLastName := "", zipFileSize := "10" }

/-- FileInfo produced from the C8 witness wire file. -/
def exFiC8 : FileInfo :=
  { crc32 := 0, directory := none, name := "a", size := 4294967295,
    serverPath := "", version := "", zipCount := 0, zipSize := 10,
    zipNaming := .notZip }

/-! ## client.rs: ranged download status handling (NuClient::download)

The HTTP exchange is modelled by the statuses and headers the server
answers with; the returned byte stream is collapsed to a unit value. -/

/-- Statuses and headers observed by one call of NuClient::download:
the status of the ranged GET, and (consulted only on 416) the status
and Content-Length header of the follow-up HEAD. -/
structure DownloadResponses where
  getStatus : Nat
  headStatus : Nat
  headContentLength : Option String
deriving DecidableEq

/-- reqwest's error_for_status treats client (4xx) and server (5xx)
statuses as errors. -/
def isHttpError (status : Nat) : Bool :=
  400 ≤ status ∧ status < 600

/-- Rust u64 FromStr used on the Content-Length header value. -/
def parseU64 (s : String) : Option Nat := parseUnsigned (2 ^ 64 - 1) s

/-- Tail of NuClient::download after the 416 special case: propagate an
HTTP error status, demand 206 Partial Content, return the stream. -/
def downloadFallthrough (status : Nat) : Except ClientError Unit :=
  if isHttpError status then .error .requestError
  else if status ≠ 206 then .error (.badHttpResponse 206 status)
  else .ok ()

/-- client.rs, NuClient::download, reduced to its status logic. -/
def downloadOutcome (start : Nat) (r : DownloadResponses) : Except ClientError Unit :=
  if r.getStatus = 416 then
    if isHttpError r.headStatus then .error .requestError
    else if r.headContentLength.bind parseU64 = some start then
      .error .alreadyComplete
    else downloadFallthrough r.getStatus
  else downloadFallthrough r.getStatus

/-- download.rs, Downloader::download_raw_to_file: the AlreadyComplete
error from the client is treated as a successful early exit. -/
def downloadTaskOutcome (start : Nat) (r : DownloadResponses) : Except ClientError Unit :=
  match downloadOutcome start r with
  | .error .alreadyComplete => .ok ()
  | .error e => .error e
  | .ok _ => .ok ()

/-! ## split.rs: byte-stream primitives

The seekable read/write stream is a list of bytes; read_exact fails
past the end of the stream, write_all extends it if needed. -/

/-- Little-endian value of a byte list. -/
def leNat : List Nat → Nat
  | [] => 0
  | b :: bs => b + 256 * leNat bs

/-- Little-endian encoding of a value into a fixed number of bytes. -/
def leBytes (k n : Nat) : List Nat :=
  (List.range k).map (fun i => n / 256 ^ i % 256)

/-- Slice of an in-memory buffer (drop then take). -/
def subSlice (l : List Nat) (off n : Nat) : List Nat :=
  (l.drop off).take n

/-- Overwrite part of an in-memory buffer.  The source mutates a slice
of a buffer in place, which can never change the buffer's length, so
the replacement is truncated to the available room; every use mirrors
an in-bounds mutation, where no truncation happens. -/
def setSlice (l : List Nat) (off : Nat) (v : List Nat) : List Nat :=
  l.take off ++ v.take (l.length - off) ++ l.drop (off + v.length)

/-- read_exact of a byte count at an absolute stream offset. -/
def readAtExact (data : List Nat) (off n : Nat) : Option (List Nat) :=
  if off + n ≤ data.length then some ((data.drop off).take n) else none

/-- write_all of a byte list at an absolute stream offset, zero-filling
and extending when the write lies past the current end. -/
def writeAt (data : List Nat) (off : Nat) (bs : List Nat) : List Nat :=
  let d := if data.length < off then data ++ List.replicate (off - data.length) 0 else data
  d.take off ++ bs ++ d.drop (off + bs.length)

/-- Largest u64 value; additions of stream offsets are checked against it. -/
def U64MAX : Nat := 2 ^ 64 - 1

/-- Rust u64::checked_add. -/
def checkedAddU64 (a b : Nat) : Option Nat :=
  if a + b ≤ U64MAX then some (a + b) else none

/-! ## split.rs: fix_offsets -/

/-- split.rs, enum Error.  The ioError case stands for any I/O error
(read_exact past the end of the stream); panicOutOfRange models a Rust
slice-indexing panic on malformed central-directory sizes. -/
inductive SplitError where
  | invalidSplitMagic (magic : List Nat)
  | eocdNotFound
  | eocdTruncated
  | invalidEocd64Magic (magic : List Nat)
  | cdTruncated (entry : Nat)
  | invalidCdMagic (entry : Nat) (magic : List Nat)
  | cdExtraTruncated (entry : Nat)
  | cdExtraSuffix
  | missingDisk (disk : Nat)
  | outOfBounds (field : String)
  | ioError
  | panicOutOfRange
deriving DecidableEq

def MAGIC_CD : List Nat := [0x50, 0x4b, 0x01, 0x02]

def MAGIC_LOCAL : List Nat := [0x50, 0x4b, 0x03, 0x04]

def MAGIC_EOCD : List Nat := [0x50, 0x4b, 0x05, 0x06]

def MAGIC_EOCD64 : List Nat := [0x50, 0x4b, 0x06, 0x06]

def MAGIC_EOCD64_LOC : List Nat := [0x50, 0x4b, 0x06, 0x07]

def MAGIC_SPLIT : List Nat := [0x50, 0x4b, 0x07, 0x08]

/-- split.rs, the extra-field TLV walk inside the central-directory
entry loop of fix_offsets.  The buffer is rebuilt with the tag-1
(zip64) blocks rewritten; mutation happens in place in the source, so a
tag-1 write may spill into the following block when the declared block
size is smaller than 28, exactly as the slices in the source do. -/
def fixCdExtra (entryIdx : Nat) (ranges : List (Nat × Nat)) (extra : List Nat) :
    Except SplitError (List Nat) :=
  if extra.isEmpty then .ok []
  else if extra.length < 4 then .error (.cdExtraTruncated entryIdx)
  else
    let id := leNat (subSlice extra 0 2)
    let size := leNat (subSlice extra 2 2)
    let data := extra.drop 4
    if data.length < size then .error (.cdExtraTruncated entryIdx)
    else if id = 1 then
      if data.length < 28 then .error (.cdExtraTruncated entryIdx)
      else
        let doffset := leNat (subSlice data 16 8)
        let disk := leNat (subSlice data 24 4)
        match ranges.get? disk with
        | none => .error (.missingDisk disk)
        | some r =>
          match checkedAddU64 r.1 doffset with
          | none => .error (.outOfBounds "entry64_lh_foffset")
          | some foffset =>
            let data2 := setSlice (setSlice data 16 (leBytes 8 foffset)) 24 [0, 0, 0, 0]
            match fixCdExtra entryIdx ranges (data2.drop size) with
            | .error e => .error e
            | .ok rest => .ok (extra.take 4 ++ data2.take size ++ rest)
    else
      match fixCdExtra entryIdx ranges (data.drop size) with
      | .error e => .error e
      | .ok rest => .ok (extra.take 4 ++ data.take size ++ rest)
termination_by extra.length
decreasing_by
  · simp only [List.length_drop, setSlice, List.length_append, List.length_take]
    omega
  · simp only [List.length_drop]
    omega

/-- split.rs, the central-directory entry loop of fix_offsets: process
a number of entries at the head of the buffer and demand that nothing
is left afterwards.  Entries whose 16-bit disk field is not 0xffff have
the disk zeroed and the 32-bit local-header offset rewritten (clamped
to u32); the extra fields are walked by fixCdExtra. -/
def fixCd (ranges : List (Nat × Nat)) (entryIdx remaining : Nat) (buf : List Nat) :
    Except SplitError (List Nat) :=
  match remaining with
  | 0 => if buf.isEmpty then .ok [] else .error .cdExtraSuffix
  | remaining' + 1 =>
    if buf.length < 46 then .error (.cdTruncated entryIdx)
    else if subSlice buf 0 4 ≠ MAGIC_CD then
      .error (.invalidCdMagic entryIdx (subSlice buf 0 4))
    else
      let filenameLen := leNat (subSlice buf 28 2)
      let extraLen := leNat (subSlice buf 30 2)
      let commentLen := leNat (subSlice buf 32 2)
      let entrySize := 46 + filenameLen + extraLen + commentLen
      let entry32Disk := leNat (subSlice buf 34 2)
      let step1 : Except SplitError (List Nat) :=
        if entry32Disk ≠ 0xffff then
          match ranges.get? entry32Disk with
          | none => .error (.missingDisk entry32Disk)
          | some r =>
            let lhDoffset := leNat (subSlice buf 42 4)
            match checkedAddU64 r.1 lhDoffset with
            | none => .error (.outOfBounds "entry32_lh_foffset")
            | some foffset =>
              .ok (setSlice (setSlice buf 34 [0, 0]) 42
                (leBytes 4 (min foffset 4294967295)))
        else .ok buf
      match step1 with
      | .error e => .error e
      | .ok buf1 =>
        if 46 + filenameLen + extraLen > buf.length then .error .panicOutOfRange
        else
          match fixCdExtra entryIdx ranges (subSlice buf1 (46 + filenameLen) extraLen) with
          | .error e => .error e
          | .ok extra2 =>
            let buf2 := setSlice buf1 (46 + filenameLen) extra2
            if entrySize > buf.length then .error .panicOutOfRange
            else
              match fixCd ranges (entryIdx + 1) remaining' (buf2.drop entrySize) with
              | .error e => .error e
              | .ok rest => .ok (buf2.take entrySize ++ rest)

/-- split.rs, tail of fix_offsets: read the central directory, fix it
entry by entry, write it back at its translated absolute offset. -/
def fixCdStage (data : List Nat) (ranges : List (Nat × Nat))
    (cdEntries cdSize cdFoffset : Nat) : Except SplitError (List Nat) :=
  match readAtExact data cdFoffset cdSize with
  | none => .error .ioError
  | some cd =>
    match fixCd ranges 0 cdEntries cd with
    | .error e => .error e
    | .ok cd2 => .ok (writeAt data cdFoffset cd2)

/-- split.rs, fix_offsets after the leading magic has been consumed and
zeroed: locate the EOCD in the tail window, rewrite the legacy EOCD,
then the zip64 locator and zip64 EOCD when present, then the central
directory. -/
def fixAfterMagic (data : List Nat) (ranges : List (Nat × Nat)) :
    Except SplitError (List Nat) :=
  let fileSize := (ranges.getLast?.map Prod.snd).getD 0
  let searchSize := min fileSize 65577
  match readAtExact data (fileSize - searchSize) searchSize with
  | none => .error .ioError
  | some window =>
    match (List.range (window.length - 3)).find?
        (fun i => subSlice window i 4 = MAGIC_EOCD) with
    | none => .error .eocdNotFound
    | some eocdBoffset =>
      let preEocd := window.take eocdBoffset
      let eocd := window.drop eocdBoffset
      if eocd.length < 22 then .error .eocdTruncated
      else
        let eocdFoffset := fileSize - eocd.length
        let cd32Disk := leNat (subSlice eocd 4 2)
        match ranges.get? cd32Disk with
        | none => .error (.missingDisk cd32Disk)
        | some cd32Range =>
          let cd32Entries := leNat (subSlice eocd 10 2)
          let cd32Size := leNat (subSlice eocd 12 4)
          let cd32Doffset := leNat (subSlice eocd 16 4)
          match checkedAddU64 cd32Range.1 cd32Doffset with
          | none => .error (.outOfBounds "cd32_foffset")
          | some cd32Foffset =>
            let eocd2 := setSlice (setSlice (setSlice (setSlice eocd
              4 [0, 0]) 6 [0, 0]) 8 (leBytes 2 cd32Entries))
              16 (leBytes 4 (min cd32Foffset 4294967295))
            let data2 := writeAt data eocdFoffset eocd2
            if preEocd.length ≥ 20 ∧
                subSlice preEocd (preEocd.length - 20) 4 = MAGIC_EOCD64_LOC then
              let eocd64Loc := preEocd.drop (preEocd.length - 20)
              let eocd64LocFoffset := eocdFoffset - 20
              let eocd64Disk := leNat (subSlice eocd64Loc 4 4)
              match ranges.get? eocd64Disk with
              | none => .error (.missingDisk eocd64Disk)
              | some locRange =>
                let eocd64Doffset := leNat (subSlice eocd64Loc 8 8)
                match checkedAddU64 locRange.1 eocd64Doffset with
                | none => .error (.outOfBounds "eocd64_foffset")
                | some eocd64Foffset =>
                  let loc2 := setSlice (setSlice (setSlice eocd64Loc
                    4 [0, 0, 0, 0]) 8 (leBytes 8 eocd64Foffset)) 16 (leBytes 4 1)
                  let data3 := writeAt data2 eocd64LocFoffset loc2
                  match readAtExact data3 eocd64Foffset 56 with
                  | none => .error .ioError
                  | some eocd64 =>
                    if subSlice eocd64 0 4 ≠ MAGIC_EOCD64 then
                      .error (.invalidEocd64Magic (subSlice eocd64 0 4))
                    else
                      let cd64Disk := leNat (subSlice eocd64 20 4)
                      match ranges.get? cd64Disk with
                      | none => .error (.missingDisk cd64Disk)
                      | some cd64Range =>
                        let cd64Entries := leNat (subSlice eocd64 32 8)
                        let cd64Size := leNat (subSlice eocd64 40 8)
                        let cd64Doffset := leNat (subSlice eocd64 48 8)
                        match checkedAddU64 cd64Range.1 cd64Doffset with
                        | none => .error (.outOfBounds "cd64_foffset")
                        | some cd64Foffset =>
                          let eocd64b := setSlice (setSlice (setSlice (setSlice
                            eocd64 16 [0, 0, 0, 0]) 20 [0, 0, 0, 0])
                            24 (leBytes 8 cd64Entries)) 48 (leBytes 8 cd64Foffset)
                          let data4 := writeAt data3 eocd64Foffset eocd64b
                          fixCdStage data4 ranges cd64Entries cd64Size cd64Foffset
            else
              fixCdStage data2 ranges cd32Entries cd32Size cd32Foffset

/-- split.rs, fix_offsets: reject an empty disk list, inspect the first
four bytes, and dispatch on the magic. -/
def fixOffsets (data : List Nat) (ranges : List (Nat × Nat)) :
    Except SplitError (List Nat) :=
  if ranges.isEmpty then .error (.missingDisk 0)
  else
    match readAtExact data 0 4 with
    | none => .error .ioError
    | some magic =>
      if magic ≠ MAGIC_SPLIT then
        if magic = MAGIC_LOCAL then .ok data
        else .error (.invalidSplitMagic magic)
      else
        fixAfterMagic (writeAt data 0 [0, 0, 0, 0]) ranges

/-- Minimal genuine split stream: the split marker followed by an
all-zero end-of-central-directory record (no entries). -/
def exSplitStream : List Nat :=
  [0x50, 0x4b, 0x07, 0x08, 0x50, 0x4b, 0x05, 0x06] ++ List.replicate 18 0

/-- Result of repairing exSplitStream: the split marker is zeroed. -/
def exSplitFixed : List Nat :=
  [0, 0, 0, 0, 0x50, 0x4b, 0x05, 0x06] ++ List.replicate 18 0

/-! ## file.rs: JoinedFile

The lazily opened piece files are modelled by the current on-disk
contents of each piece; read_at returns as many bytes as the piece
holds at the requested relative offset (an exact reader).  The cached
split ranges were queried at add_file time, so they may disagree with
the pieces' current lengths — that is the truncation case the source
turns into an unexpected-EOF error. -/

/-- Errors surfaced by JoinedFile::read.  noSplitSelected is the
InvalidInput error of ensure_opened; panicOutOfRange models an
out-of-bounds index into the path list. -/
inductive JoinError where
  | noSplitSelected
  | unexpectedEof (piece : Nat)
  | panicOutOfRange
deriving DecidableEq

/-- file.rs, struct JoinedFile (paths and the open handle are collapsed
into the pieces' contents). -/
structure JoinedState where
  pieces : List (List Nat)
  splits : List (Nat × Nat)
  curSplit : Option Nat
  curOffset : Nat
deriving DecidableEq

/-- file.rs, impl Read for JoinedFile: bound the read by the end of the
current split, read from that single piece at the relative offset, fail
with an unexpected-EOF error if the piece is already exhausted, and
advance (possibly into the next split). -/
def readJoined (s : JoinedState) (bufLen : Nat) :
    Except JoinError (List Nat × JoinedState) :=
  if bufLen = 0 then .ok ([], s)
  else match s.curSplit with
  | none => .ok ([], s)
  | some cur =>
    match s.pieces.get? cur, s.splits.get? cur with
    | some piece, some range =>
      let toRead := min (range.2 - s.curOffset) bufLen
      let bytes := subSlice piece (s.curOffset - range.1) toRead
      let n := bytes.length
      if n = 0 then .error (.unexpectedEof cur)
      else
        let s1 : JoinedState := { s with curOffset := s.curOffset + n }
        if s.curOffset + n = range.2 then
          if cur + 1 = s.splits.length then
            .ok (bytes, { s1 with curSplit := none })
          else
            .ok (bytes, { s1 with curSplit := some (cur + 1) })
        else
          .ok (bytes, s1)
    | _, _ => .error .panicOutOfRange

/-- Joined view used to witness the C6 theorem: one three-byte piece. -/
def exJoined : JoinedState :=
  { pieces := [[7, 8, 9]], splits := [(0, 3)], curSplit := some 0, curOffset := 0 }

/-! ## file.rs: MemoryCowFile

The wrapped reader is a byte list together with a set of positions at
which a read call fails (an I/O fault model); a successful read returns
exactly the available bytes (an exact reader, one deterministic
refinement of the Read contract).  The inner reader's seek position is
not tracked separately: every modelled read happens at the overlay's
current offset, which is where the source positions the reader (either
by an explicit seek or by sequential-position reuse guarded by
need_seek). -/

/-- The inner reader wrapped by MemoryCowFile. -/
structure InnerReader where
  data : List Nat
  failAt : Nat → Bool

/-- Errors of the overlay: offset arithmetic out of u64 bounds, or an
I/O failure of the inner reader. -/
inductive CowError where
  | outOfBounds (what : String)
  | ioError
deriving DecidableEq

/-- file.rs, struct MemoryCowFile.  The block map is an association
list from block index to a block-sized buffer. -/
structure CowState where
  blockSize : Nat
  blocks : List (Nat × List Nat)
  origSize : Nat
  curSize : Nat
  curOffset : Nat
  needSeek : Bool

/-- Lookup in the block map. -/
def getBlock? : List (Nat × List Nat) → Nat → Option (List Nat)
  | [], _ => none
  | (k, v) :: rest, i => if k = i then some v else getBlock? rest i

/-- Insert or replace in the block map. -/
def setBlock : List (Nat × List Nat) → Nat → List Nat → List (Nat × List Nat)
  | [], i, v => [(i, v)]
  | (k, w) :: rest, i, v =>
    if k = i then (k, v) :: rest else (k, w) :: setBlock rest i v

/-- file.rs, MemoryCowFile::new: the original size is the inner
reader's length, the map starts empty. -/
def mkCow (inner : InnerReader) (blockSize : Nat) : CowState :=
  { blockSize := blockSize, blocks := [], origSize := inner.data.length,
    curSize := inner.data.length, curOffset := 0, needSeek := false }

/-- file.rs, MemoryCowFile::is_cow_block. -/
def isCowBlock (s : CowState) (block : Nat) : Bool :=
  (getBlock? s.blocks block).isSome || decide (block * s.blockSize ≥ s.origSize)

/-- One read call of the inner reader at a given position: fails at a
faulted position, otherwise returns the bytes available there. -/
def innerRead (inner : InnerReader) (pos len : Nat) : Except Unit (List Nat) :=
  if inner.failAt pos then .error ()
  else .ok (subSlice inner.data pos len)

/-- read_exact on the inner reader: additionally fails when fewer bytes
than requested are available. -/
def innerReadExact (inner : InnerReader) (pos len : Nat) : Except Unit (List Nat) :=
  if inner.failAt pos then .error ()
  else if pos + len ≤ inner.data.length then .ok (subSlice inner.data pos len)
  else .error ()

/-- Rust u64::div_ceil (the divisor is the nonzero block size). -/
def ceilDiv (a b : Nat) : Nat := (a + b - 1) / b

/-- file.rs, MemoryCowFile::write, first pass: for every intersected
block that is vacant in the map, compute the block bounds, and when the
block overlaps the original data and is not completely covered by the
written range, read the original slice into a fresh zero-initialized
block buffer and insert it.  The partially updated map is returned even
on failure, as the source mutates the map in place. -/
def writePhase1 (inner : InnerReader) (origSize curOffset endOffset blockSize : Nat) :
    List (Nat × List Nat) → List Nat → List (Nat × List Nat) × Option CowError
  | m, [] => (m, none)
  | m, b :: rest =>
    match getBlock? m b with
    | some _ => writePhase1 inner origSize curOffset endOffset blockSize m rest
    | none =>
      let blockStart := b * blockSize
      if blockStart + blockSize > U64MAX then
        (m, some (.outOfBounds "block_end_offset"))
      else
        let blockEnd := blockStart + blockSize
        if blockStart < origSize ∧ (blockStart < curOffset ∨ blockEnd > endOffset) then
          let toRead := min (origSize - blockStart) blockSize
          match innerReadExact inner blockStart toRead with
          | .error _ => (m, some .ioError)
          | .ok bytes =>
            writePhase1 inner origSize curOffset endOffset blockSize
              (setBlock m b (bytes ++ List.replicate (blockSize - toRead) 0)) rest
        else
          writePhase1 inner origSize curOffset endOffset blockSize m rest

/-- file.rs, MemoryCowFile::write, second pass: copy the caller's bytes
into the (now present or zero-initialized) block buffers, advancing the
offset and growing the current size.  Nothing here can fail. -/
def writePhase2 (blockSize : Nat) :
    List (Nat × List Nat) → Nat → Nat → List Nat → List Nat →
    List (Nat × List Nat) × Nat × Nat
  | m, curOffset, curSize, _, [] => (m, curOffset, curSize)
  | m, curOffset, curSize, buf, b :: rest =>
    let data := (getBlock? m b).getD (List.replicate blockSize 0)
    let blockOffset := curOffset % blockSize
    let toCopy := min buf.length (data.length - blockOffset)
    let data2 := setSlice data blockOffset (buf.take toCopy)
    let newOffset := curOffset + toCopy
    let newSize := max curSize newOffset
    writePhase2 blockSize (setBlock m b data2) newOffset newSize (buf.drop toCopy) rest

/-- file.rs, impl Write for MemoryCowFile: reject a write whose end
offset overflows u64, run the copy-on-write read pass, then the copy
pass; the returned count is always the full buffer length. -/
def writeCow (inner : InnerReader) (s : CowState) (buf : List Nat) :
    CowState × Except CowError Nat :=
  if buf.isEmpty then (s, .ok 0)
  else
    let s1 := { s with needSeek := true }
    let startBlock := s.curOffset / s.blockSize
    if s.curOffset + buf.length > U64MAX then
      (s1, .error (.outOfBounds "end_offset"))
    else
      let endOffset := s.curOffset + buf.length
      let endBlock := ceilDiv endOffset s.blockSize
      let blockList := List.range' startBlock (endBlock - startBlock)
      match writePhase1 inner s.origSize s.curOffset endOffset s.blockSize
          s1.blocks blockList with
      | (m, some e) => ({ s1 with blocks := m }, .error e)
      | (m, none) =>
        match writePhase2 s.blockSize m s.curOffset s.curSize buf blockList with
        | (m2, newOffset, newSize) =>
          ({ s1 with blocks := m2, curOffset := newOffset, curSize := newSize },
            .ok buf.length)

/-- file.rs, the memory loop of MemoryCowFile::read: serve consecutive
blocks from the map, zero-filling holes, advancing the offset. -/
def readCowBlocksLoop (m : List (Nat × List Nat)) (blockSize : Nat) :
    Nat → Nat → List Nat → List Nat × Nat
  | curOffset, _, [] => ([], curOffset)
  | curOffset, bufLen, b :: rest =>
    let blockOffset := curOffset % blockSize
    let blockRemain := blockSize - blockOffset
    let toFill := min bufLen blockRemain
    let chunk := match getBlock? m b with
      | some data => subSlice data blockOffset toFill
      | none => List.replicate toFill 0
    let next := readCowBlocksLoop m blockSize (curOffset + toFill) (bufLen - toFill) rest
    (chunk ++ next.1, next.2)

/-- file.rs, impl Read for MemoryCowFile: an empty buffer or an offset
at or past the current size reads nothing; otherwise the read is capped
so it does not cross a boundary between overlay blocks and pass-through
blocks, and is served either from memory or by one sequential read of
the inner reader. -/
def readCow (inner : InnerReader) (s : CowState) (bufLen : Nat) :
    CowState × Except CowError (List Nat) :=
  if bufLen = 0 ∨ s.curOffset ≥ s.curSize then (s, .ok [])
  else
    let startBlock := s.curOffset / s.blockSize
    let bufRemain := min (s.curSize - s.curOffset) bufLen
    let endBlock0 := ceilDiv (s.curOffset + bufRemain) s.blockSize
    let firstIsCow := isCowBlock s startBlock
    let endBlock := ((List.range' (startBlock + 1) (endBlock0 - (startBlock + 1))).find?
      (fun b => isCowBlock s b != firstIsCow)).getD endBlock0
    let endOffset := if endBlock * s.blockSize > U64MAX then s.curSize
      else min (endBlock * s.blockSize) s.curSize
    let bufRemain2 := min (endOffset - s.curOffset) bufLen
    if firstIsCow then
      match readCowBlocksLoop s.blocks s.blockSize s.curOffset bufRemain2
          (List.range' startBlock (endBlock - startBlock)) with
      | (bytes, newOffset) =>
        ({ s with curOffset := newOffset, needSeek := true }, .ok bytes)
    else
      let toRead := min (s.origSize - s.curOffset) bufRemain2
      match innerRead inner s.curOffset toRead with
      | .error _ => ({ s with needSeek := false }, .error .ioError)
      | .ok bytes =>
        if s.curOffset + bytes.length = s.origSize ∧ toRead > bytes.length then
          ({ s with curOffset := s.curOffset + toRead, needSeek := false },
            .ok (bytes ++ List.replicate (toRead - bytes.length) 0))
        else
          ({ s with curOffset := s.curOffset + bytes.length, needSeek := false },
            .ok bytes)

/-- file.rs, impl Seek for MemoryCowFile. -/
inductive CowSeekFrom where
  | start (o : Nat)
  | fromEnd (o : Int)
  | current (o : Int)

/-- file.rs, MemoryCowFile::seek: compute the target offset (checked
against u64 bounds for the relative forms) and mark the inner position
dirty when the offset actually changes. -/
def seekCow (s : CowState) (pos : CowSeekFrom) : CowState × Except CowError Nat :=
  let newOffsetE : Except CowError Nat :=
    match pos with
    | .start o => .ok o
    | .fromEnd o =>
      let v := (s.curSize : Int) + o
      if v < 0 ∨ v > (U64MAX : Int) then .error (.outOfBounds "seek") else .ok v.toNat
    | .current o =>
      let v := (s.curOffset : Int) + o
      if v < 0 ∨ v > (U64MAX : Int) then .error (.outOfBounds "seek") else .ok v.toNat
  match newOffsetE with
  | .error e => (s, .error e)
  | .ok newOffset =>
    if s.curOffset ≠ newOffset then
      ({ s with curOffset := newOffset, needSeek := true }, .ok newOffset)
    else (s, .ok newOffset)

/-! ## Specification-side views of the overlay -/

/-- The byte a block map together with the original data makes visible
at a position: the mapped block's byte, else the original byte below
the original size, else zero. -/
def blocksByteAt (inner : InnerReader) (blockSize origSize : Nat)
    (m : List (Nat × List Nat)) (p : Nat) : Nat :=
  match getBlock? m (p / blockSize) with
  | some data => data.getD (p % blockSize) 0
  | none => if p < origSize then inner.data.getD p 0 else 0

/-- The byte the overlay makes visible at a position. -/
def contentsAt (inner : InnerReader) (s : CowState) (p : Nat) : Nat :=
  blocksByteAt inner s.blockSize s.origSize s.blocks p

/-- Well-formedness of an overlay state: every state the source can
actually build (a nonzero block size, the original size taken from the
inner reader, a current size that only ever grows, and block buffers of
exactly one block) satisfies this. -/
def CowWF (inner : InnerReader) (s : CowState) : Prop :=
  0 < s.blockSize ∧ s.origSize = inner.data.length ∧ s.origSize ≤ s.curSize ∧
  s.curSize ≤ U64MAX ∧
  ∀ b d, getBlock? s.blocks b = some d → d.length = s.blockSize

/-- An inner reader with no faulted read positions. -/
def NoFail (inner : InnerReader) : Prop :=
  ∀ p, inner.failAt p = false

/-- Read a byte count starting from a fixed position by seeking and
then looping over read calls, as a short-read tolerant caller does; the
fuel bounds the number of read calls (each call returns at least one
byte, so a byte count's worth of fuel suffices). -/
def readLoopAux (inner : InnerReader) : Nat → CowState → Nat → Option (List Nat)
  | 0, _, remaining => if remaining = 0 then some [] else none
  | fuel + 1, s, remaining =>
    if remaining = 0 then some []
    else match readCow inner s remaining with
    | (_, .error _) => none
    | (s1, .ok bytes) =>
      if bytes.isEmpty then none
      else match readLoopAux inner fuel s1 (remaining - bytes.length) with
        | some rest => some (bytes ++ rest)
        | none => none

/-- Seek to a position and read exactly a byte count (none on any read
error or premature end of file). -/
def readExactFrom (inner : InnerReader) (s : CowState) (pos len : Nat) :
    Option (List Nat) :=
  match seekCow s (.start pos) with
  | (_, .error _) => none
  | (s1, .ok _) => readLoopAux inner len s1 len

/-- Example inner reader and overlay state for the write-then-read
round trip. -/
def exInnerC5 : InnerReader :=
  { data := [1, 2, 3, 4, 5, 6, 7, 8], failAt := fun _ => false }

def exCowC5 : CowState :=
  { blockSize := 4, blocks := [], origSize := 8, curSize := 8,
    curOffset := 2, needSeek := false }

/-- Example failing inner reader: the very first original block read
fails, so the two-phase write aborts in the first phase. -/
def exInnF : InnerReader :=
  { data := [1, 2, 3, 4, 5, 6, 7, 8], failAt := fun p => p == 0 }

def exCowF : CowState :=
  { blockSize := 4, blocks := [], origSize := 8, curSize := 8,
    curOffset := 2, needSeek := false }

/-! ## download.rs: the planner (compute_initial_state) -/

/-- download.rs, DOWNLOAD_EXT (CARGO_PKG_NAME is nudl). -/
def DOWNLOAD_EXT : String := "nudl_download"

/-- download.rs, VERIFY_EXT (CARGO_PKG_NAME is nudl). -/
def VERIFY_EXT : String := "nudl_verify"

/-- client.rs, FileInfo::is_split. -/
def isSplit (fi : FileInfo) : Bool := decide (fi.zipCount > 0)

/-- client.rs, FileInfo::download_count. -/
def downloadCount (fi : FileInfo) : Nat :=
  if fi.zipCount = 0 then 1 else fi.zipCount

/-- client.rs, FileInfo::download_name. -/
def downloadName (fi : FileInfo) (index : Nat) : String :=
  match fi.zipNaming with
  | .notZip => fi.name
  | scheme => zipNamingName scheme index

/-- client.rs, FileInfo::download_size. -/
def downloadSize (fi : FileInfo) : Nat :=
  if fi.zipCount = 0 then fi.size else fi.zipSize

/-- The on-disk state the planner consults: whether a subdirectory
opens, and the stat result (a file size) for a name in a directory
context (none is the base directory). -/
structure Disk where
  dirExists : String → Bool
  stat? : Option String → String → Option Nat

/-- download.rs, struct DownloadParams. -/
structure DownloadParams where
  fileIndex : Nat
  downloadIndex : Nat
  startOffset : Nat
deriving DecidableEq

/-- download.rs, struct PostProcessParams. -/
structure PostProcessParams where
  fileIndex : Nat
  cleanOnly : Bool
deriving DecidableEq

/-- download.rs, struct InitialState. -/
structure InitialState where
  dlBytes : Nat
  ppBytes : Nat
  dlRemain : List Nat
  dlTasks : List DownloadParams
  ppTasks : List PostProcessParams
deriving DecidableEq

/-- One iteration of the planner's inner loop over the downloads of a
file: a completed piece, or its verify marker for unsplit files,
contributes its on-disk size; otherwise the partial download's size
(0 when absent) is contributed and a task with that start offset is
queued. -/
def pieceScan (disk : Disk) (dir : Option String) (fi : FileInfo) (dlI : Nat) :
    Nat × Option Nat :=
  match disk.stat? dir (downloadName fi dlI) with
  | some m => (m, none)
  | none =>
    match (if isSplit fi then none
        else disk.stat? dir (downloadName fi dlI ++ "." ++ VERIFY_EXT)) with
    | some m => (m, none)
    | none =>
      ((disk.stat? dir (downloadName fi dlI ++ "." ++ DOWNLOAD_EXT)).getD 0,
        some ((disk.stat? dir (downloadName fi dlI ++ "." ++ DOWNLOAD_EXT)).getD 0))

/-- The inner loop over a list of download indices, accumulating the
byte count and the queued tasks in order. -/
def pieceScanList (disk : Disk) (dir : Option String) (fi : FileInfo)
    (fIdx : Nat) : List Nat → Nat × List DownloadParams
  | [] => (0, [])
  | dlI :: rest =>
    ((pieceScan disk dir fi dlI).1 + (pieceScanList disk dir fi fIdx rest).1,
      (match (pieceScan disk dir fi dlI).2 with
        | some so =>
          [{ fileIndex := fIdx, downloadIndex := dlI, startOffset := so }]
        | none => []) ++ (pieceScanList disk dir fi fIdx rest).2)

/-- The per-file contribution of the planner loop. -/
structure FileScanOut where
  dlB : Nat
  ppB : Nat
  remain : Nat
  tasks : List DownloadParams
  ppts : List PostProcessParams

/-- download.rs, compute_initial_state, body of the per-file loop once
a directory context is resolved: a present output file counts as fully
downloaded and post-processed (with a cleanup task for split files);
otherwise the pieces are scanned and a post-processing task is queued
when nothing remains to download. -/
def fileScanIn (disk : Disk) (dir : Option String) (fi : FileInfo)
    (fIdx : Nat) : FileScanOut :=
  if (disk.stat? dir fi.name).isSome then
    { dlB := downloadSize fi, ppB := fi.size, remain := 0, tasks := [],
      ppts := if isSplit fi then [{ fileIndex := fIdx, cleanOnly := true }]
        else [] }
  else
    { dlB := (pieceScanList disk dir fi fIdx (List.range (downloadCount fi))).1,
      ppB := 0,
      remain :=
        (pieceScanList disk dir fi fIdx (List.range (downloadCount fi))).2.length,
      tasks := (pieceScanList disk dir fi fIdx (List.range (downloadCount fi))).2,
      ppts := if (pieceScanList disk dir fi fIdx
            (List.range (downloadCount fi))).2.length = 0
        then [{ fileIndex := fIdx, cleanOnly := false }] else [] }

/-- download.rs, compute_initial_state, one file: a missing
subdirectory queues every download of the file from offset 0. -/
def fileScan (disk : Disk) (fi : FileInfo) (fIdx : Nat) : FileScanOut :=
  match fi.directory with
  | some name =>
    if disk.dirExists name then fileScanIn disk (some name) fi fIdx
    else
      { dlB := 0, ppB := 0, remain := downloadCount fi,
        tasks := (List.range (downloadCount fi)).map
          (fun dlI =>
            { fileIndex := fIdx, downloadIndex := dlI, startOffset := 0 }),
        ppts := [] }
  | none => fileScanIn disk none fi fIdx

/-- download.rs, compute_initial_state: fold the per-file scans in
order, keeping the program order of both queues and of the per-file
remaining counts. -/
def computeAux (disk : Disk) : Nat → List FileInfo → InitialState
  | _, [] =>
    { dlBytes := 0, ppBytes := 0, dlRemain := [], dlTasks := [], ppTasks := [] }
  | fIdx, fi :: rest =>
    { dlBytes :=
        (fileScan disk fi fIdx).dlB + (computeAux disk (fIdx + 1) rest).dlBytes,
      ppBytes :=
        (fileScan disk fi fIdx).ppB + (computeAux disk (fIdx + 1) rest).ppBytes,
      dlRemain :=
        (fileScan disk fi fIdx).remain :: (computeAux disk (fIdx + 1) rest).dlRemain,
      dlTasks :=
        (fileScan disk fi fIdx).tasks ++ (computeAux disk (fIdx + 1) rest).dlTasks,
      ppTasks :=
        (fileScan disk fi fIdx).ppts ++ (computeAux disk (fIdx + 1) rest).ppTasks }

def computeInitialState (disk : Disk) (files : List FileInfo) : InitialState :=
  computeAux disk 0 files

/-- Ground truth for the planner accounting: per-piece raw sizes whose
per-file sum is the file's download size, finished pieces and verify
markers on disk agreeing with their piece size, and partial downloads
no larger than their piece. -/
abbrev GoodFile (disk : Disk) (ps : Nat → Nat → Nat) (fIdx : Nat)
    (fi : FileInfo) : Prop :=
  ((List.range (downloadCount fi)).map (ps fIdx)).sum = downloadSize fi ∧
  ∀ dlI, dlI < downloadCount fi →
    (disk.stat? fi.directory (downloadName fi dlI) = none ∨
      disk.stat? fi.directory (downloadName fi dlI) = some (ps fIdx dlI)) ∧
    (disk.stat? fi.directory (downloadName fi dlI ++ "." ++ VERIFY_EXT) = none ∨
      disk.stat? fi.directory (downloadName fi dlI ++ "." ++ VERIFY_EXT) =
        some (ps fIdx dlI)) ∧
    (disk.stat? fi.directory
        (downloadName fi dlI ++ "." ++ DOWNLOAD_EXT)).getD 0 ≤ ps fIdx dlI

/-- The ground truth for an indexed list of files. -/
def GoodFiles (disk : Disk) (ps : Nat → Nat → Nat) : Nat → List FileInfo → Prop
  | _, [] => True
  | k, fi :: rest => GoodFile disk ps k fi ∧ GoodFiles disk ps (k + 1) rest

/-- The not-yet-downloaded bytes of the queued tasks. -/
def remainingDebt (ps : Nat → Nat → Nat) (tasks : List DownloadParams) : Nat :=
  (tasks.map (fun t => ps t.fileIndex t.downloadIndex - t.startOffset)).sum

/-- The not-yet-downloaded bytes of one piece's optional task. -/
def taskDebt (ps : Nat → Nat → Nat) (fIdx dlI : Nat) : Option Nat → Nat
  | some so => ps fIdx dlI - so
  | none => 0

/-- Counterexample data: an unsplit 10-byte file whose verify marker on
disk has size 999. -/
def exFiC3bad : FileInfo :=
  { crc32 := 0, directory := none, name := "a", size := 10, serverPath := "",
    version := "", zipCount := 0, zipSize := 0, zipNaming := .notZip }

def exDiskC3bad : Disk :=
  { dirExists := fun _ => true,
    stat? := fun dir p =>
      if dir = none ∧ p = "a.nudl_verify" then some 999 else none }

/-- Witness data: a two-piece split zip (pieces of 60 and 40 bytes,
download size 100) with piece 0 finished on disk and 15 bytes of piece
1 partially downloaded. -/
def exFiC3w : FileInfo :=
  { crc32 := 0, directory := none, name := "out.zip", size := 90,
    serverPath := "", version := "", zipCount := 2, zipSize := 100,
    zipNaming := .legacy "sp" ".bin" 3 }

def exPsC3w : Nat → Nat → Nat := fun _ dlI => if dlI = 0 then 60 else 40

def exDiskC3w : Disk :=
  { dirExists := fun _ => true,
    stat? := fun dir p =>
      if dir = none ∧ p = "sp001.bin" then some 60
      else if dir = none ∧ p = "sp002.bin.nudl_download" then some 15
      else none }

/-! ## Theorems -/

/-- The composition of the Rust casts i64-to-i32-to-u32 keeps exactly the
low 32 bits interpreted as an unsigned value. -/
theorem i32ToU32_i64ToI32 (v : Int) :
    i32ToU32 (i64ToI32 v) = v.emod (2 ^ 32) := by
  unfold i32ToU32 i64ToI32
  have h1 : ((2 : Int) ^ 31) % (2 ^ 32) = 2 ^ 31 := by norm_num
  calc ((v + 2 ^ 31) % (2 ^ 32) - 2 ^ 31) % (2 ^ 32)
      = ((v + 2 ^ 31) % (2 ^ 32) - (2 ^ 31) % (2 ^ 32)) % (2 ^ 32) := by rw [h1]
    _ = (v + 2 ^ 31 - 2 ^ 31) % (2 ^ 32) := by rw [← Int.sub_emod]
    _ = v % (2 ^ 32) := by ring_nf

/-! ## Claim theorems for the naming scheme and the wire conversion -/

/-- C1 counterexample: on the inputs of the claim (first=foo001.bin,
last=foo003.bin, count=3) the parser does not select the Legacy scheme;
it fails with UnknownZipNaming, because the length check in
ZipNamingScheme::parse requires the first name to carry no digit group
(the wire reports the first split name with the file number omitted,
see model.rs, zip_file_first_name). -/
theorem c1_legacy_claim_counterexample :
    zipNamingParse "foo001.bin" "foo003.bin" 3 =
      .error (.unknownZipNaming "foo001.bin" "foo003.bin" 3) := by
  rfl

/-- C1 (amended): for first=foo.bin (file number omitted, as the wire
reports it), last=foo003.bin, count=3, the parser selects
Legacy(pre=foo, suf=.bin, digits=3), and the piece-name function
returns foo001.bin for index 0 and foo003.bin for index 2. -/
theorem c1_legacy_naming_amended :
    zipNamingParse "foo.bin" "foo003.bin" 3 = .ok (.legacy "foo" ".bin" 3) ∧
    zipNamingName (.legacy "foo" ".bin" 3) 0 = "foo001.bin" ∧
    zipNamingName (.legacy "foo" ".bin" 3) 2 = "foo003.bin" :=
  ⟨by rfl, by rfl, by rfl⟩

/-- C10: with zip_count = 1, the parser accepts (with the NotSplit
scheme) exactly when the reported first and last names agree; when they
differ it fails with UnknownZipNaming carrying first, last and count. -/
theorem c10_single_archive_requires_equal_names (first last : String) :
    (first ≠ last →
      zipNamingParse first last 1 = .error (.unknownZipNaming first last 1)) ∧
    (first = last → zipNamingParse first last 1 = .ok (.notSplit first)) := by
  constructor
  · intro h
    simp [zipNamingParse, h]
  · intro h
    simp [zipNamingParse, h]

/-- C10 witness: concrete instances of both sides of the dichotomy. -/
theorem c10_single_archive_requires_equal_names_witness :
    zipNamingParse "a.zip" "b.zip" 1 =
      .error (.unknownZipNaming "a.zip" "b.zip" 1) ∧
    zipNamingParse "a.zip" "a.zip" 1 = .ok (.notSplit "a.zip") :=
  ⟨(c10_single_archive_requires_equal_names "a.zip" "b.zip").1 (by decide),
   (c10_single_archive_requires_equal_names "a.zip" "a.zip").2 rfl⟩

/-- C8: in FileInfo::try_from, a negative parsed file_size or
zip_file_size is reinterpreted as its low 32 bits read as an unsigned
value (truncate to 32 bits, reinterpret as u32, widen to u64); a
non-negative value passes through unchanged. -/
theorem c8_negative_wire_sizes_reinterpreted (f : WireFile) (v w : Int)
    (fi : FileInfo)
    (hv : parseI64 f.fileSize = some v) (hw : parseI64 f.zipFileSize = some w)
    (hok : fileInfoTryFrom f = .ok fi) :
    (v < 0 → fi.size = (v % (2 ^ 32)).toNat) ∧
    (0 ≤ v → fi.size = v.toNat) ∧
    (w < 0 → fi.zipSize = (w % (2 ^ 32)).toNat) ∧
    (0 ≤ w → fi.zipSize = w.toNat) := by
  unfold fileInfoTryFrom at hok
  cases hcrc : parseI32 f.fileCrc with
  | none => rw [hcrc] at hok; simp at hok
  | some crc =>
    rw [hcrc, hv] at hok
    cases hcnt : parseU32 f.zipFileCnt with
    | none => rw [hcnt] at hok; simp at hok
    | some cnt =>
      rw [hcnt, hw] at hok
      dsimp only at hok
      cases hnm : zipNamingParse f.zipFileFirstName f.zipFileLastName cnt with
      | error e => rw [hnm] at hok; simp at hok
      | ok nm =>
        rw [hnm] at hok
        simp only [Except.ok.injEq] at hok
        subst hok
        refine ⟨fun hneg => ?_, fun hpos => ?_, fun hneg => ?_, fun hpos => ?_⟩
        · simp only [if_pos hneg, i32ToU32_i64ToI32]; rfl
        · simp only [if_neg (by omega : ¬v < 0)]
        · simp only [if_pos hneg, i32ToU32_i64ToI32]; rfl
        · simp only [if_neg (by omega : ¬w < 0)]

/-- C8 witness: the file_size string -1 is recovered as 4294967295
while the non-negative zip_file_size 10 passes through. -/
theorem c8_negative_wire_sizes_reinterpreted_witness :
    exFiC8.size = ((-1 : Int) % (2 ^ 32)).toNat ∧
    exFiC8.zipSize = ((10 : Int)).toNat :=
  have h := c8_negative_wire_sizes_reinterpreted exWireC8 (-1) 10 exFiC8
    (by rfl) (by rfl) (by rfl)
  ⟨h.1 (by decide), h.2.2.2 (by decide)⟩

/-- C9: on HTTP 416 with a HEAD that succeeds at the HTTP level, the
download call fails with AlreadyComplete exactly when the HEAD's
Content-Length parses to the requested start offset; a non-206 response
never yields a stream, a non-error non-206 status is reported as
BadHttpResponse, and the download task treats AlreadyComplete as
success. -/
theorem c9_range_416_interpretation (start : Nat) (r : DownloadResponses) :
    (r.getStatus = 416 → isHttpError r.headStatus = false →
      (downloadOutcome start r = .error .alreadyComplete ↔
        r.headContentLength.bind parseU64 = some start)) ∧
    (r.getStatus ≠ 206 → ∀ u, downloadOutcome start r ≠ .ok u) ∧
    (r.getStatus ≠ 206 → isHttpError r.getStatus = false →
      downloadOutcome start r = .error (.badHttpResponse 206 r.getStatus)) ∧
    (downloadOutcome start r = .error .alreadyComplete →
      downloadTaskOutcome start r = .ok ()) := by
  refine ⟨?_, ?_, ?_, ?_⟩
  · intro h416 hhead
    simp only [downloadOutcome, h416, if_pos rfl, hhead, Bool.false_eq_true,
      if_false, reduceIte]
    constructor
    · intro h
      by_cases hcl : r.headContentLength.bind parseU64 = some start
      · exact hcl
      · rw [if_neg hcl] at h
        simp [downloadFallthrough, isHttpError] at h
    · intro h
      rw [if_pos h]
  · intro h206 u
    unfold downloadOutcome downloadFallthrough
    by_cases h416 : r.getStatus = 416
    · rw [if_pos h416]
      by_cases hh : isHttpError r.headStatus
      · simp [hh]
      · simp only [Bool.not_eq_true] at hh
        simp only [hh, Bool.false_eq_true, if_false]
        by_cases hcl : r.headContentLength.bind parseU64 = some start
        · simp [hcl]
        · have : isHttpError r.getStatus = true := by
            simp [isHttpError]; omega
          simp [hcl, this]
    · rw [if_neg h416]
      by_cases he : isHttpError r.getStatus
      · simp [he]
      · simp only [Bool.not_eq_true] at he
        simp [he, h206]
  · intro h206 herr
    have h416 : r.getStatus ≠ 416 := by
      intro h
      rw [h] at herr
      simp [isHttpError] at herr
    unfold downloadOutcome downloadFallthrough
    simp [h416, herr, h206]
  · intro h
    unfold downloadTaskOutcome
    rw [h]

/-- C9 witness: scenario S5 of the spec.  A ranged request from offset
1000 answered with 416, where the HEAD reports Content-Length 1000,
yields AlreadyComplete and the download task counts the piece as done. -/
theorem c9_range_416_interpretation_witness :
    downloadOutcome 1000
      { getStatus := 416, headStatus := 200, headContentLength := some "1000" } =
      .error .alreadyComplete ∧
    downloadTaskOutcome 1000
      { getStatus := 416, headStatus := 200, headContentLength := some "1000" } =
      .ok () := by
  have h := c9_range_416_interpretation 1000
    { getStatus := 416, headStatus := 200, headContentLength := some "1000" }
  have h1 := (h.1 rfl (by decide)).2 (by decide)
  exact ⟨h1, h.2.2.2 h1⟩

theorem setSlice_length (l v : List Nat) (off : Nat) :
    (setSlice l off v).length = l.length := by
  unfold setSlice
  simp only [List.length_append, List.length_take, List.length_drop]
  omega

/-! ## Claim theorems for fix_offsets -/

/-- Helper: with a non-empty disk list and a readable four-byte magic,
fix_offsets dispatches on that magic. -/
theorem fixOffsets_eq_of_magic (data : List Nat) (ranges : List (Nat × Nat))
    (hr : ranges ≠ []) (magic : List Nat)
    (hm : readAtExact data 0 4 = some magic) :
    fixOffsets data ranges =
      if magic = MAGIC_SPLIT then fixAfterMagic (writeAt data 0 [0, 0, 0, 0]) ranges
      else if magic = MAGIC_LOCAL then .ok data
      else .error (.invalidSplitMagic magic) := by
  have hre : ranges.isEmpty = false := by
    cases ranges with
    | nil => exact absurd rfl hr
    | cons a l => rfl
  unfold fixOffsets
  rw [hre, hm]
  by_cases hs : magic = MAGIC_SPLIT
  · simp [hs]
  · simp [hs]

/-- C7: fix_offsets reads the first four bytes; the local-file-header
magic is a successful no-op, the split marker is zeroed before the
repair continues on the modified stream, and any other magic fails with
InvalidSplitMagic carrying those bytes. -/
theorem c7_first_magic_dispatch (data : List Nat) (ranges : List (Nat × Nat))
    (hr : ranges ≠ []) (magic : List Nat)
    (hm : readAtExact data 0 4 = some magic) :
    (magic = MAGIC_LOCAL → fixOffsets data ranges = .ok data) ∧
    (magic = MAGIC_SPLIT →
      fixOffsets data ranges =
        fixAfterMagic (writeAt data 0 [0, 0, 0, 0]) ranges) ∧
    (magic ≠ MAGIC_LOCAL → magic ≠ MAGIC_SPLIT →
      fixOffsets data ranges = .error (.invalidSplitMagic magic)) := by
  rw [fixOffsets_eq_of_magic data ranges hr magic hm]
  refine ⟨fun hl => ?_, fun hs => ?_, fun hl hs => ?_⟩
  · rw [hl, if_neg (by decide : ¬(MAGIC_LOCAL = MAGIC_SPLIT)), if_pos rfl]
  · rw [hs, if_pos rfl]
  · rw [if_neg hs, if_neg hl]

/-- C7 witness: a stream with magic 01 02 03 04 fails with
InvalidSplitMagic carrying exactly those bytes. -/
theorem c7_first_magic_dispatch_witness :
    fixOffsets [1, 2, 3, 4] [(0, 4)] = .error (.invalidSplitMagic [1, 2, 3, 4]) :=
  (c7_first_magic_dispatch [1, 2, 3, 4] [(0, 4)] (by decide) [1, 2, 3, 4]
    (by rfl)).2.2 (by decide) (by decide)

/-- C2 counterexample: repairing the minimal split stream with
disk_ranges covering the whole 26-byte stream succeeds, but running
fix_offsets again on the repaired stream fails with
InvalidSplitMagic([0,0,0,0]) because the first pass zeroed the split
marker — so the second pass does not succeed, contrary to the claim. -/
theorem c2_repair_idempotence_counterexample :
    fixOffsets exSplitStream [(0, 26)] = .ok exSplitFixed ∧
    fixOffsets exSplitFixed [(0, 26)] = .error (.invalidSplitMagic [0, 0, 0, 0]) :=
  ⟨by rfl, by rfl⟩

/-- C2 (amended): a second run of fix_offsets is a successful no-op
precisely on streams whose first run was itself a no-op, namely those
that already start with the local-file-header magic; a stream whose
first run consumed the split marker leaves zeros in its place and a
second run rejects it. -/
theorem c2_repair_idempotent_amended (data out : List Nat)
    (ranges : List (Nat × Nat)) (hr : ranges ≠ [])
    (hmagic : subSlice data 0 4 = MAGIC_LOCAL)
    (hok : fixOffsets data ranges = .ok out) :
    out = data ∧ fixOffsets out ranges = .ok out := by
  have hlen : 4 ≤ data.length := by
    have hcg := congrArg List.length hmagic
    simp only [subSlice, List.drop_zero, List.length_take, MAGIC_LOCAL,
      List.length_cons, List.length_nil] at hcg
    omega
  have hm : readAtExact data 0 4 = some MAGIC_LOCAL := by
    unfold readAtExact
    rw [if_pos (by omega), ← hmagic]
    rfl
  have heq := fixOffsets_eq_of_magic data ranges hr MAGIC_LOCAL hm
  rw [heq, if_neg (by decide : ¬(MAGIC_LOCAL = MAGIC_SPLIT)), if_pos rfl] at hok
  simp only [Except.ok.injEq] at hok
  subst hok
  refine ⟨rfl, ?_⟩
  rw [heq, if_neg (by decide : ¬(MAGIC_LOCAL = MAGIC_SPLIT)), if_pos rfl]

/-- C2 witness: a five-byte stream that is already a local-header zip
is left unchanged by a repeated run. -/
theorem c2_repair_idempotent_amended_witness :
    fixOffsets [0x50, 0x4b, 0x03, 0x04, 9] [(0, 5)] =
      .ok [0x50, 0x4b, 0x03, 0x04, 9] :=
  (c2_repair_idempotent_amended [0x50, 0x4b, 0x03, 0x04, 9]
    [0x50, 0x4b, 0x03, 0x04, 9] [(0, 5)] (by decide) (by rfl) (by rfl)).2

/-- C6: a JoinedFile read call touches exactly one piece — every byte
it returns is drawn from the currently selected piece at consecutive
offsets — and returns at most piece_end - current_offset bytes; if the
piece's on-disk content is already exhausted at the current relative
offset while the cached range says more should follow, the read fails
with the unexpected-EOF error naming that piece. -/
theorem c6_read_within_one_piece (s : JoinedState) (bufLen cur : Nat)
    (piece : List Nat) (range : Nat × Nat)
    (hcur : s.curSplit = some cur)
    (hpiece : s.pieces.get? cur = some piece)
    (hrange : s.splits.get? cur = some range)
    (hoff : range.1 ≤ s.curOffset) (hoff2 : s.curOffset < range.2)
    (hbuf : 1 ≤ bufLen) :
    (piece.length ≤ s.curOffset - range.1 →
      readJoined s bufLen = .error (.unexpectedEof cur)) ∧
    (∀ out s1, readJoined s bufLen = .ok (out, s1) →
      out = subSlice piece (s.curOffset - range.1) out.length ∧
      1 ≤ out.length ∧ out.length ≤ range.2 - s.curOffset) := by
  have hb0 : ¬bufLen = 0 := by omega
  constructor
  · intro hexh
    have hdrop : piece.drop (s.curOffset - range.1) = [] :=
      List.drop_eq_nil_of_le hexh
    unfold readJoined
    rw [if_neg hb0, hcur]
    simp only [hpiece, hrange]
    have hbytes : subSlice piece (s.curOffset - range.1)
        (min (range.2 - s.curOffset) bufLen) = [] := by
      unfold subSlice
      rw [hdrop, List.take_nil]
    rw [hbytes]
    rfl
  · intro out s1 h
    unfold readJoined at h
    rw [if_neg hb0, hcur] at h
    simp only [hpiece, hrange] at h
    by_cases hn : (subSlice piece (s.curOffset - range.1)
        (min (range.2 - s.curOffset) bufLen)).length = 0
    · rw [if_pos hn] at h
      cases h
    · rw [if_neg hn] at h
      have hout : out = subSlice piece (s.curOffset - range.1)
          (min (range.2 - s.curOffset) bufLen) := by
        split at h
        · split at h
          · simp only [Except.ok.injEq, Prod.mk.injEq] at h
            exact h.1.symm
          · simp only [Except.ok.injEq, Prod.mk.injEq] at h
            exact h.1.symm
        · simp only [Except.ok.injEq, Prod.mk.injEq] at h
          exact h.1.symm
      subst hout
      have hlen : (subSlice piece (s.curOffset - range.1)
            (min (range.2 - s.curOffset) bufLen)).length =
          min (min (range.2 - s.curOffset) bufLen)
            (piece.length - (s.curOffset - range.1)) := by
        unfold subSlice
        rw [List.length_take, List.length_drop]
      refine ⟨?_, by omega, by omega⟩
      rw [hlen]
      unfold subSlice
      refine (List.take_eq_take.mpr ?_).symm
      rw [List.length_drop]
      omega

/-- C6 witness: a two-byte read of the witness view returns the first
two bytes of the single piece and stays within its range. -/
theorem c6_read_within_one_piece_witness :
    readJoined exJoined 2 =
      .ok ([7, 8], { exJoined with curOffset := 2 }) ∧
    ([7, 8] : List Nat) = subSlice [7, 8, 9] 0 2 ∧
    ([7, 8] : List Nat).length ≤ 3 - 0 :=
  have h := (c6_read_within_one_piece exJoined 2 0 [7, 8, 9] (0, 3)
    rfl rfl rfl (by decide) (by decide) (by decide)).2
    [7, 8] { exJoined with curOffset := 2 } (by rfl)
  ⟨by rfl, h.1, h.2.2⟩

/-! ## Block-map and slice lemmas -/

theorem getBlock?_setBlock_self (m : List (Nat × List Nat)) (i : Nat) (v : List Nat) :
    getBlock? (setBlock m i v) i = some v := by
  induction m with
  | nil => simp [setBlock, getBlock?]
  | cons kw rest ih =>
    obtain ⟨k, w⟩ := kw
    by_cases hk : k = i
    · simp [setBlock, getBlock?, hk]
    · simp [setBlock, getBlock?, hk, ih]

theorem getBlock?_setBlock_ne (m : List (Nat × List Nat)) (i j : Nat) (v : List Nat)
    (h : i ≠ j) : getBlock? (setBlock m i v) j = getBlock? m j := by
  induction m with
  | nil => simp [setBlock, getBlock?, h]
  | cons kw rest ih =>
    obtain ⟨k, w⟩ := kw
    by_cases hk : k = i
    · subst hk
      simp [setBlock, getBlock?, h]
    · simp [setBlock, getBlock?, hk, ih]

theorem subSlice_getD (l : List Nat) (off n i : Nat) (hi : i < n) :
    (subSlice l off n).getD i 0 = if off + i < l.length then l.getD (off + i) 0 else 0 := by
  unfold subSlice
  simp only [List.getD_eq_getElem?_getD, List.getElem?_take, List.getElem?_drop,
    if_pos hi]
  by_cases h : off + i < l.length
  · rw [if_pos h]
  · rw [if_neg h, List.getElem?_eq_none (by omega)]
    rfl

theorem subSlice_length (l : List Nat) (off n : Nat) :
    (subSlice l off n).length = min n (l.length - off) := by
  unfold subSlice
  rw [List.length_take, List.length_drop]

theorem getD_append_left (l r : List Nat) (i : Nat) (h : i < l.length) :
    (l ++ r).getD i 0 = l.getD i 0 := by
  simp only [List.getD_eq_getElem?_getD, List.getElem?_append, if_pos h]

theorem getD_append_right (l r : List Nat) (i : Nat) (h : l.length ≤ i) :
    (l ++ r).getD i 0 = r.getD (i - l.length) 0 := by
  simp only [List.getD_eq_getElem?_getD, List.getElem?_append,
    if_neg (by omega : ¬i < l.length)]

theorem getD_replicate (n i : Nat) : (List.replicate n (0 : Nat)).getD i 0 = 0 := by
  rw [List.getD_eq_getElem?_getD]
  by_cases h : i < n
  · rw [List.getElem?_replicate, if_pos h]
    rfl
  · rw [List.getElem?_eq_none (by simp; omega)]
    rfl

theorem setSlice_getD_inside (l v : List Nat) (off i : Nat)
    (hin : off + v.length ≤ l.length) (h1 : off ≤ i) (h2 : i < off + v.length) :
    (setSlice l off v).getD i 0 = v.getD (i - off) 0 := by
  unfold setSlice
  have hto : (l.take off).length = off := by
    rw [List.length_take]; omega
  have hvt : v.take (l.length - off) = v := List.take_of_length_le (by omega)
  rw [hvt]
  rw [getD_append_left _ _ _ (by rw [List.length_append, hto]; omega)]
  rw [getD_append_right _ _ _ (by rw [hto]; omega), hto]

theorem setSlice_getD_outside (l v : List Nat) (off i : Nat)
    (hin : off + v.length ≤ l.length) (h : i < off ∨ off + v.length ≤ i) :
    (setSlice l off v).getD i 0 = l.getD i 0 := by
  unfold setSlice
  have hto : (l.take off).length = off := by
    rw [List.length_take]; omega
  have hvt : v.take (l.length - off) = v := List.take_of_length_le (by omega)
  rw [hvt]
  rcases h with h | h
  · rw [getD_append_left _ _ _ (by rw [List.length_append, hto]; omega)]
    rw [getD_append_left _ _ _ (by omega : i < (l.take off).length)]
    simp only [List.getD_eq_getElem?_getD, List.getElem?_take, if_pos h]
  · rw [getD_append_right _ _ _ (by rw [List.length_append, hto]; omega)]
    rw [List.length_append, hto]
    by_cases hl : i < l.length
    · simp only [List.getD_eq_getElem?_getD, List.getElem?_drop]
      congr 2
      omega
    · simp only [List.getD_eq_getElem?_getD]
      rw [List.getElem?_eq_none (by omega : l.length ≤ i),
        List.getElem?_eq_none (by rw [List.length_drop]; omega)]

/-! ## Write pass 1: copy-on-write reads preserve the visible bytes -/

theorem blocksByteAt_eq_of_get (inner : InnerReader) (bs o : Nat)
    (m : List (Nat × List Nat)) (p : Nat) (d : List Nat)
    (h : getBlock? m (p / bs) = some d) :
    blocksByteAt inner bs o m p = d.getD (p % bs) 0 := by
  unfold blocksByteAt
  rw [h]

theorem blocksByteAt_eq_of_none (inner : InnerReader) (bs o : Nat)
    (m : List (Nat × List Nat)) (p : Nat)
    (h : getBlock? m (p / bs) = none) :
    blocksByteAt inner bs o m p = if p < o then inner.data.getD p 0 else 0 := by
  unfold blocksByteAt
  rw [h]

theorem writePhase1_spec (inner : InnerReader) (origSize curOffset endOffset bs : Nat)
    (hbs : 0 < bs) (horig : origSize = inner.data.length) :
    ∀ (L : List Nat) (m : List (Nat × List Nat)),
      (∀ b d, getBlock? m b = some d → d.length = bs) →
      (∀ b d,
        getBlock? (writePhase1 inner origSize curOffset endOffset bs m L).1 b =
          some d → d.length = bs) ∧
      (∀ p, blocksByteAt inner bs origSize
          (writePhase1 inner origSize curOffset endOffset bs m L).1 p =
        blocksByteAt inner bs origSize m p) ∧
      (∀ b d, getBlock? m b = some d →
        (getBlock? (writePhase1 inner origSize curOffset endOffset bs m L).1 b).isSome) ∧
      ((writePhase1 inner origSize curOffset endOffset bs m L).2 = none →
        ∀ b, b ∈ L →
          getBlock? (writePhase1 inner origSize curOffset endOffset bs m L).1 b = none →
          ¬(b * bs < origSize ∧ (b * bs < curOffset ∨ b * bs + bs > endOffset))) := by
  intro L
  induction L with
  | nil =>
    intro m hm
    refine ⟨hm, fun p => rfl, fun b d h => by simp [writePhase1, h], ?_⟩
    intro _ b hb
    simp at hb
  | cons b rest ih =>
    intro m hm
    by_cases hg : (getBlock? m b).isSome
    · obtain ⟨d0, hd0⟩ := Option.isSome_iff_exists.mp hg
      have hstep : writePhase1 inner origSize curOffset endOffset bs m (b :: rest) =
          writePhase1 inner origSize curOffset endOffset bs m rest := by
        simp only [writePhase1, hd0]
      rw [hstep]
      obtain ⟨ih1, ih2, ih3, ih4⟩ := ih m hm
      refine ⟨ih1, ih2, ih3, ?_⟩
      intro he c hc hnone
      rcases List.mem_cons.mp hc with hcb | hc
      · subst hcb
        have hsome := ih3 c d0 hd0
        rw [hnone] at hsome
        cases hsome
      · exact ih4 he c hc hnone
    · have hgn : getBlock? m b = none := Option.not_isSome_iff_eq_none.mp hg
      by_cases hov : b * bs + bs > U64MAX
      · have hstep : writePhase1 inner origSize curOffset endOffset bs m (b :: rest) =
            (m, some (.outOfBounds "block_end_offset")) := by
          simp only [writePhase1, hgn]
          rw [if_pos hov]
        rw [hstep]
        exact ⟨hm, fun p => rfl, fun c d h => by simp [h], by intro he; cases he⟩
      · by_cases hpre : b * bs < origSize ∧ (b * bs < curOffset ∨ b * bs + bs > endOffset)
        · by_cases hio : inner.failAt (b * bs)
          · have hstep : writePhase1 inner origSize curOffset endOffset bs m (b :: rest) =
                (m, some .ioError) := by
              simp only [writePhase1, hgn]
              rw [if_neg hov, if_pos hpre]
              simp only [innerReadExact, if_pos hio]
            rw [hstep]
            exact ⟨hm, fun p => rfl, fun c d h => by simp [h], by intro he; cases he⟩
          · have hrd : b * bs + min (origSize - b * bs) bs ≤ inner.data.length := by
              omega
            have hread : innerReadExact inner (b * bs) (min (origSize - b * bs) bs) =
                .ok (subSlice inner.data (b * bs) (min (origSize - b * bs) bs)) := by
              unfold innerReadExact
              rw [if_neg (by simp [hio]), if_pos hrd]
            have hstep : writePhase1 inner origSize curOffset endOffset bs m (b :: rest) =
                writePhase1 inner origSize curOffset endOffset bs
                  (setBlock m b
                    (subSlice inner.data (b * bs) (min (origSize - b * bs) bs) ++
                      List.replicate (bs - min (origSize - b * bs) bs) 0)) rest := by
              simp only [writePhase1, hgn]
              rw [if_neg hov, if_pos hpre, hread]
            set toRead := min (origSize - b * bs) bs with htr
            set blockData := subSlice inner.data (b * bs) toRead ++
              List.replicate (bs - toRead) 0 with hbd
            have hbytesLen : (subSlice inner.data (b * bs) toRead).length = toRead := by
              rw [subSlice_length]
              omega
            have hbdLen : blockData.length = bs := by
              rw [hbd, List.length_append, hbytesLen, List.length_replicate]
              omega
            have hm2 : ∀ c d, getBlock? (setBlock m b blockData) c = some d →
                d.length = bs := by
              intro c d h
              by_cases hcb : b = c
              · subst hcb
                rw [getBlock?_setBlock_self] at h
                cases h
                exact hbdLen
              · rw [getBlock?_setBlock_ne _ _ _ _ hcb] at h
                exact hm c d h
            have hpres : ∀ p, blocksByteAt inner bs origSize (setBlock m b blockData) p =
                blocksByteAt inner bs origSize m p := by
              intro p
              by_cases hpb : p / bs = b
              · rw [blocksByteAt_eq_of_get inner bs origSize _ p blockData
                  (by rw [hpb]; exact getBlock?_setBlock_self m b blockData)]
                rw [blocksByteAt_eq_of_none inner bs origSize m p (by rw [hpb]; exact hgn)]
                have hdm := Nat.div_add_mod p bs
                rw [hpb, Nat.mul_comm] at hdm
                have hml := Nat.mod_lt p hbs
                by_cases hpo : p % bs < toRead
                · rw [hbd, getD_append_left _ _ _ (by omega)]
                  rw [subSlice_getD _ _ _ _ hpo,
                    if_pos (by omega : b * bs + p % bs < inner.data.length)]
                  rw [hdm, if_pos (by omega : p < origSize)]
                · rw [hbd, getD_append_right _ _ _ (by omega), getD_replicate]
                  rw [if_neg (by omega : ¬p < origSize)]
              · unfold blocksByteAt
                rw [getBlock?_setBlock_ne _ _ _ _ (fun h => hpb h.symm)]
            obtain ⟨ih1, ih2, ih3, ih4⟩ := ih (setBlock m b blockData) hm2
            rw [hstep]
            refine ⟨ih1, fun p => (ih2 p).trans (hpres p), ?_, ?_⟩
            · intro c d h
              by_cases hcb : b = c
              · subst hcb
                exact ih3 b blockData (getBlock?_setBlock_self m b blockData)
              · exact ih3 c d (by rw [getBlock?_setBlock_ne _ _ _ _ hcb]; exact h)
            · intro he c hc hnone
              rcases List.mem_cons.mp hc with hcb | hc
              · subst hcb
                have hsome := ih3 c blockData (getBlock?_setBlock_self m c blockData)
                rw [hnone] at hsome
                cases hsome
              · exact ih4 he c hc hnone
        · have hstep : writePhase1 inner origSize curOffset endOffset bs m (b :: rest) =
              writePhase1 inner origSize curOffset endOffset bs m rest := by
            simp only [writePhase1, hgn]
            rw [if_neg hov, if_neg hpre]
          rw [hstep]
          obtain ⟨ih1, ih2, ih3, ih4⟩ := ih m hm
          refine ⟨ih1, ih2, ih3, ?_⟩
          intro he c hc hnone
          rcases List.mem_cons.mp hc with hcb | hc
          · subst hcb
            exact hpre
          · exact ih4 he c hc hnone

/-! ## Write pass 2: the caller's bytes land in the blocks -/

theorem getD_drop_zero (l : List Nat) (n i : Nat) :
    (l.drop n).getD i 0 = l.getD (n + i) 0 := by
  simp only [List.getD_eq_getElem?_getD, List.getElem?_drop]

theorem getD_take_lt (l : List Nat) (n i : Nat) (h : i < n) :
    (l.take n).getD i 0 = l.getD i 0 := by
  simp only [List.getD_eq_getElem?_getD, List.getElem?_take, if_pos h]

theorem div_eq_of_in_block (p b0 bs : Nat) (h1 : b0 * bs ≤ p)
    (h2 : p < b0 * bs + bs) : p / bs = b0 :=
  Nat.div_eq_of_lt_le h1 (by rw [Nat.succ_mul]; omega)

theorem writePhase2_spec (inner : InnerReader) (origSize bs : Nat) (hbs : 0 < bs) :
    ∀ (k b0 : Nat) (m : List (Nat × List Nat)) (cur size : Nat) (buf : List Nat),
      (∀ b d, getBlock? m b = some d → d.length = bs) →
      1 ≤ buf.length →
      cur / bs = b0 →
      cur + buf.length ≤ (b0 + k) * bs →
      (b0 + k - 1) * bs < cur + buf.length →
      ((writePhase2 bs m cur size buf (List.range' b0 k)).2.1 = cur + buf.length) ∧
      ((writePhase2 bs m cur size buf (List.range' b0 k)).2.2 =
        max size (cur + buf.length)) ∧
      (∀ b, b < b0 ∨ b0 + k ≤ b →
        getBlock? (writePhase2 bs m cur size buf (List.range' b0 k)).1 b =
          getBlock? m b) ∧
      (∀ b d,
        getBlock? (writePhase2 bs m cur size buf (List.range' b0 k)).1 b = some d →
          d.length = bs) ∧
      (∀ b, b0 ≤ b → b < b0 + k →
        (getBlock? (writePhase2 bs m cur size buf (List.range' b0 k)).1 b).isSome) ∧
      (∀ p, cur ≤ p → p < cur + buf.length →
        blocksByteAt inner bs origSize
            (writePhase2 bs m cur size buf (List.range' b0 k)).1 p =
          buf.getD (p - cur) 0) ∧
      ((∀ b, b0 ≤ b → b < b0 + k → getBlock? m b = none →
          origSize ≤ b * bs ∨ (cur ≤ b * bs ∧ (b + 1) * bs ≤ cur + buf.length)) →
        ∀ p, p < cur ∨ cur + buf.length ≤ p →
          blocksByteAt inner bs origSize
              (writePhase2 bs m cur size buf (List.range' b0 k)).1 p =
            blocksByteAt inner bs origSize m p) := by
  intro k
  induction k with
  | zero =>
    intro b0 m cur size buf hm hbuf hdiv hub hlbnd
    have hlb : b0 * bs ≤ cur := by
      rw [← hdiv]
      exact Nat.div_mul_le_self cur bs
    simp only [Nat.add_zero] at hub
    omega
  | succ k ih =>
    intro b0 m cur size buf hm hbuf hdiv hub hlbnd
    have hlb : b0 * bs ≤ cur := by
      rw [← hdiv]
      exact Nat.div_mul_le_self cur bs
    have hdm : b0 * bs + cur % bs = cur := by
      have h0 := Nat.div_add_mod cur bs
      rw [hdiv, Nat.mul_comm] at h0
      exact h0
    have hml : cur % bs < bs := Nat.mod_lt cur hbs
    have hdl : ((getBlock? m b0).getD (List.replicate bs 0)).length = bs := by
      cases h : getBlock? m b0 with
      | some d => exact hm b0 d h
      | none => simp
    set data := (getBlock? m b0).getD (List.replicate bs 0) with hdata
    set toCopy := min buf.length (data.length - cur % bs) with htc
    have htc2 : toCopy = min buf.length (bs - cur % bs) := by
      rw [htc, hdl]
    have htcpos : 1 ≤ toCopy := by omega
    set data2 := setSlice data (cur % bs) (buf.take toCopy) with hdata2
    have htklen : (buf.take toCopy).length = toCopy := by
      rw [List.length_take]
      omega
    have hd2len : data2.length = bs := by
      rw [hdata2, setSlice_length, hdl]
    have hinb : cur % bs + (buf.take toCopy).length ≤ data.length := by
      rw [htklen, hdl]
      omega
    have hrange : List.range' b0 (k + 1) = b0 :: List.range' (b0 + 1) k := by
      rw [List.range'_succ]
    have hstep : writePhase2 bs m cur size buf (List.range' b0 (k + 1)) =
        writePhase2 bs (setBlock m b0 data2) (cur + toCopy)
          (max size (cur + toCopy)) (buf.drop toCopy) (List.range' (b0 + 1) k) := by
      rw [hrange]
      simp only [writePhase2]
    have hmul1 : (b0 + 1) * bs = b0 * bs + bs := by ring
    have hb0in : ∀ (mx : List (Nat × List Nat)), getBlock? mx b0 = some data2 →
        ∀ p, cur ≤ p → p < cur + toCopy →
        blocksByteAt inner bs origSize mx p = buf.getD (p - cur) 0 := by
      intro mx hmx p hp1 hp2
      have hpdiv : p / bs = b0 := div_eq_of_in_block p b0 bs (by omega) (by omega)
      have hpdm : b0 * bs + p % bs = p := by
        have h0 := Nat.div_add_mod p bs
        rw [hpdiv, Nat.mul_comm] at h0
        exact h0
      rw [blocksByteAt_eq_of_get inner bs origSize _ p data2 (by rw [hpdiv]; exact hmx)]
      rw [hdata2, setSlice_getD_inside _ _ _ _ hinb (by omega) (by omega)]
      rw [getD_take_lt _ _ _ (by omega)]
      congr 1
      omega
    have hb0out : ∀ (mx : List (Nat × List Nat)), getBlock? mx b0 = some data2 →
        ∀ p, p / bs = b0 → (p < cur ∨ cur + toCopy ≤ p) →
        blocksByteAt inner bs origSize mx p = data.getD (p % bs) 0 := by
      intro mx hmx p hpdiv hp
      have hpdm : b0 * bs + p % bs = p := by
        have h0 := Nat.div_add_mod p bs
        rw [hpdiv, Nat.mul_comm] at h0
        exact h0
      have hpml : p % bs < bs := Nat.mod_lt p hbs
      rw [blocksByteAt_eq_of_get inner bs origSize _ p data2 (by rw [hpdiv]; exact hmx)]
      rw [hdata2, setSlice_getD_outside _ _ _ _ hinb (by omega)]
    have hb0get : getBlock? (setBlock m b0 data2) b0 = some data2 :=
      getBlock?_setBlock_self m b0 data2
    have hvacb0 : ∀ hvac : (∀ b, b0 ≤ b → b < b0 + (k + 1) → getBlock? m b = none →
          origSize ≤ b * bs ∨ (cur ≤ b * bs ∧ (b + 1) * bs ≤ cur + buf.length)),
        ∀ p, p / bs = b0 → (p < cur ∨ cur + buf.length ≤ p) →
        data.getD (p % bs) 0 = blocksByteAt inner bs origSize m p := by
      intro hvac p hpdiv hp
      have hpdm : b0 * bs + p % bs = p := by
        have h0 := Nat.div_add_mod p bs
        rw [hpdiv, Nat.mul_comm] at h0
        exact h0
      have hpml : p % bs < bs := Nat.mod_lt p hbs
      cases hget : getBlock? m b0 with
      | some d =>
        rw [blocksByteAt_eq_of_get inner bs origSize m p d (by rw [hpdiv]; exact hget)]
        rw [hdata, hget]
        rfl
      | none =>
        rw [blocksByteAt_eq_of_none inner bs origSize m p (by rw [hpdiv]; exact hget)]
        rcases hvac b0 (by omega) (by omega) hget with hv | hv
        · rw [hdata, hget, if_neg (by omega)]
          simp only [Option.getD_none]
          exact getD_replicate bs (p % bs)
        · omega
    have hm2 : ∀ b d, getBlock? (setBlock m b0 data2) b = some d → d.length = bs := by
      intro b d h
      by_cases hb : b0 = b
      · subst hb
        rw [hb0get] at h
        cases h
        exact hd2len
      · rw [getBlock?_setBlock_ne _ _ _ _ hb] at h
        exact hm b d h
    by_cases hk : k = 0
    · -- last block: the whole remaining buffer fits here
      subst hk
      have hnorm : (b0 + (0 + 1)) * bs = b0 * bs + bs := by ring
      have htcfull : toCopy = buf.length := by omega
      have hdropnil : buf.drop toCopy = [] := List.drop_eq_nil_of_le (by omega)
      rw [hstep, hdropnil]
      have hfin : writePhase2 bs (setBlock m b0 data2) (cur + toCopy)
          (max size (cur + toCopy)) [] (List.range' (b0 + 1) 0) =
          (setBlock m b0 data2, cur + toCopy, max size (cur + toCopy)) := by
        simp [writePhase2]
      rw [hfin]
      refine ⟨by rw [htcfull], by rw [htcfull], ?_, hm2, ?_, ?_, ?_⟩
      · intro b hb
        exact getBlock?_setBlock_ne _ _ _ _ (by omega)
      · intro b hb1 hb2
        have hb : b = b0 := by omega
        subst hb
        rw [hb0get]
        rfl
      · intro p hp1 hp2
        exact hb0in _ hb0get p hp1 (by omega)
      · intro hvac p hp
        by_cases hpdiv : p / bs = b0
        · rw [hb0out _ hb0get p hpdiv (by omega)]
          exact hvacb0 hvac p hpdiv hp
        · unfold blocksByteAt
          rw [getBlock?_setBlock_ne _ _ _ _ (fun h => hpdiv h.symm)]
    · -- more blocks follow: this block is filled to its end
      have hge : (b0 + 1) * bs ≤ (b0 + k) * bs :=
        Nat.mul_le_mul_right bs (by omega)
      have hlbnd2 : (b0 + k) * bs < cur + buf.length := by
        have hsuc : b0 + (k + 1) - 1 = b0 + k := by omega
        rw [hsuc] at hlbnd
        exact hlbnd
      have htcf : toCopy = bs - cur % bs := by omega
      have hcur2 : cur + toCopy = (b0 + 1) * bs := by omega
      have hlen2 : 1 ≤ (buf.drop toCopy).length := by
        rw [List.length_drop]
        omega
      have hdiv2 : (cur + toCopy) / bs = b0 + 1 := by
        rw [hcur2]
        exact Nat.mul_div_cancel (b0 + 1) hbs
      have hassoc : (b0 + (k + 1)) * bs = (b0 + 1 + k) * bs := by ring
      have hub2 : (cur + toCopy) + (buf.drop toCopy).length ≤ (b0 + 1 + k) * bs := by
        rw [List.length_drop]
        omega
      have hlbnd3 : (b0 + 1 + k - 1) * bs < (cur + toCopy) + (buf.drop toCopy).length := by
        have h1 : b0 + 1 + k - 1 = b0 + k := by omega
        rw [h1, List.length_drop]
        omega
      obtain ⟨ia, ib, ic, idd, ie, iff2, ig⟩ := ih (b0 + 1) (setBlock m b0 data2)
        (cur + toCopy) (max size (cur + toCopy)) (buf.drop toCopy) hm2 hlen2 hdiv2 hub2 hlbnd3
      rw [hstep]
      have hb0fin : getBlock? (writePhase2 bs (setBlock m b0 data2) (cur + toCopy)
          (max size (cur + toCopy)) (buf.drop toCopy) (List.range' (b0 + 1) k)).1 b0 =
          some data2 := by
        rw [ic b0 (Or.inl (by omega))]
        exact hb0get
      refine ⟨?_, ?_, ?_, idd, ?_, ?_, ?_⟩
      · rw [ia, List.length_drop]
        omega
      · rw [ib, List.length_drop]
        omega
      · intro b hb
        rw [ic b (by omega)]
        exact getBlock?_setBlock_ne _ _ _ _ (by omega)
      · intro b hb1 hb2
        by_cases hbb : b = b0
        · subst hbb
          rw [hb0fin]
          rfl
        · exact ie b (by omega) (by omega)
      · intro p hp1 hp2
        by_cases hpc : cur + toCopy ≤ p
        · rw [iff2 p hpc (by rw [List.length_drop]; omega)]
          rw [getD_drop_zero]
          congr 1
          omega
        · exact hb0in _ hb0fin p hp1 (by omega)
      · intro hvac p hp
        have hvac2 : ∀ b, b0 + 1 ≤ b → b < b0 + 1 + k →
            getBlock? (setBlock m b0 data2) b = none →
            origSize ≤ b * bs ∨ ((cur + toCopy) ≤ b * bs ∧
              (b + 1) * bs ≤ (cur + toCopy) + (buf.drop toCopy).length) := by
          intro b hb1 hb2 hnone
          rw [getBlock?_setBlock_ne _ _ _ _ (by omega)] at hnone
          rcases hvac b (by omega) (by omega) hnone with hv | hv
          · exact Or.inl hv
          · right
            have hmono : (b0 + 1) * bs ≤ b * bs := Nat.mul_le_mul_right bs (by omega)
            constructor
            · omega
            · rw [List.length_drop]
              omega
        rw [ig hvac2 p (by rw [List.length_drop]; rcases hp with h | h; exact Or.inl (by omega); exact Or.inr (by omega))]
        by_cases hpdiv : p / bs = b0
        · have hplt : p < cur := by
            rcases hp with h | h
            · exact h
            · exfalso
              have hpdm : b0 * bs + p % bs = p := by
                have h0 := Nat.div_add_mod p bs
                rw [hpdiv, Nat.mul_comm] at h0
                exact h0
              have hpml : p % bs < bs := Nat.mod_lt p hbs
              omega
          rw [hb0out _ hb0get p hpdiv (Or.inl hplt)]
          exact hvacb0 hvac p hpdiv (Or.inl hplt)
        · unfold blocksByteAt
          rw [getBlock?_setBlock_ne _ _ _ _ (fun h => hpdiv h.symm)]

/-! ## The write call as a whole -/

theorem le_ceilDiv_mul (a b : Nat) (hb : 0 < b) : a ≤ ceilDiv a b * b := by
  unfold ceilDiv
  have hdm := Nat.div_add_mod (a + b - 1) b
  have hml := Nat.mod_lt (a + b - 1) hb
  have hcm : (a + b - 1) / b * b = b * ((a + b - 1) / b) := Nat.mul_comm _ _
  omega

theorem ceilDiv_pred_mul_lt (a b : Nat) (hb : 0 < b) (ha : 0 < a) :
    (ceilDiv a b - 1) * b < a := by
  unfold ceilDiv
  have hdm := Nat.div_add_mod (a + b - 1) b
  have hml := Nat.mod_lt (a + b - 1) hb
  have hsm : ((a + b - 1) / b - 1) * b = (a + b - 1) / b * b - 1 * b :=
    Nat.sub_mul _ _ _
  have hcm : (a + b - 1) / b * b = b * ((a + b - 1) / b) := Nat.mul_comm _ _
  omega

theorem div_le_ceilDiv (cur len b : Nat) (hb : 0 < b) :
    cur / b ≤ ceilDiv (cur + len) b := by
  unfold ceilDiv
  exact Nat.le_trans (Nat.div_le_div_right (by omega)) (Nat.le_refl _)

/-- The successful write: full length reported, offset advanced past the
written range, size grown to cover it, the written bytes (and only
those) visible, all touched blocks present in the map. -/
theorem writeCow_ok_spec (inner : InnerReader) (s : CowState) (buf : List Nat)
    (s2 : CowState) (n : Nat) (hwf : CowWF inner s)
    (h : writeCow inner s buf = (s2, .ok n)) :
    n = buf.length ∧
    s2.blockSize = s.blockSize ∧ s2.origSize = s.origSize ∧
    (buf = [] → s2 = s) ∧
    (buf ≠ [] →
      s2.curOffset = s.curOffset + buf.length ∧
      s2.curSize = max s.curSize (s.curOffset + buf.length) ∧
      CowWF inner s2 ∧
      (∀ p, s.curOffset ≤ p → p < s.curOffset + buf.length →
        contentsAt inner s2 p = buf.getD (p - s.curOffset) 0) ∧
      (∀ p, p < s.curOffset ∨ s.curOffset + buf.length ≤ p →
        contentsAt inner s2 p = contentsAt inner s p) ∧
      (∀ b, s.curOffset / s.blockSize ≤ b →
        b < ceilDiv (s.curOffset + buf.length) s.blockSize →
        (getBlock? s2.blocks b).isSome)) := by
  obtain ⟨hbs, horig, hsz, hszm, hm⟩ := hwf
  by_cases hbe : buf.isEmpty
  · have hnil : buf = [] := List.isEmpty_iff.mp hbe
    unfold writeCow at h
    rw [if_pos hbe] at h
    simp only [Prod.mk.injEq, Except.ok.injEq] at h
    obtain ⟨h1, h2⟩ := h
    subst h1
    exact ⟨by rw [hnil]; exact h2.symm, rfl, rfl, fun _ => rfl,
      fun hc => absurd hnil hc⟩
  · have hne : buf ≠ [] := fun hc => hbe (by rw [hc]; rfl)
    have hlen : 1 ≤ buf.length := by
      cases buf with
      | nil => exact absurd rfl hne
      | cons a l => simp
    unfold writeCow at h
    rw [if_neg hbe] at h
    by_cases hov : s.curOffset + buf.length > U64MAX
    · rw [if_pos hov] at h
      simp only [Prod.mk.injEq] at h
      cases h.2
    · rw [if_neg hov] at h
      dsimp only at h
      set b0 := s.curOffset / s.blockSize with hb0
      set eb := ceilDiv (s.curOffset + buf.length) s.blockSize with heb
      set L := List.range' b0 (eb - b0) with hL
      have hble : b0 ≤ eb := div_le_ceilDiv s.curOffset buf.length s.blockSize hbs
      have hadd : b0 + (eb - b0) = eb := by omega
      obtain ⟨hA1, hA2, hA3, hA4⟩ := writePhase1_spec inner s.origSize s.curOffset
        (s.curOffset + buf.length) s.blockSize hbs horig L s.blocks hm
      rcases hph : writePhase1 inner s.origSize s.curOffset
          (s.curOffset + buf.length) s.blockSize s.blocks L with ⟨m1, e1⟩
      rw [hph] at h hA1 hA2 hA3 hA4
      cases e1 with
      | some e =>
        simp only [Prod.mk.injEq] at h
        cases h.2
      | none =>
        obtain ⟨ha, hb, hc, hd, he, hf, hg⟩ := writePhase2_spec inner s.origSize
          s.blockSize hbs (eb - b0) b0 m1 s.curOffset s.curSize buf hA1 hlen rfl
          (by rw [hadd]; exact le_ceilDiv_mul _ _ hbs)
          (by rw [hadd]; exact ceilDiv_pred_mul_lt _ _ hbs (by omega))
        rw [← hL] at ha hb hc hd he hf hg
        simp only [Prod.mk.injEq, Except.ok.injEq] at h
        obtain ⟨hs2, hn⟩ := h
        subst hs2
        refine ⟨hn.symm, rfl, rfl, fun hc2 => absurd hc2 hne, fun _ => ?_⟩
        have hvac : ∀ b, b0 ≤ b → b < b0 + (eb - b0) → getBlock? m1 b = none →
            s.origSize ≤ b * s.blockSize ∨
              (s.curOffset ≤ b * s.blockSize ∧
                (b + 1) * s.blockSize ≤ s.curOffset + buf.length) := by
          intro b hb1 hb2 hnone
          have hmem : b ∈ L := by
            rw [hL]
            exact List.mem_range'_1.mpr ⟨hb1, hb2⟩
          have hni := hA4 rfl b hmem hnone
          have hbe2 : (b + 1) * s.blockSize = b * s.blockSize + s.blockSize := by
            ring
          omega
        refine ⟨ha, hb, ⟨hbs, horig, ?_, ?_, hd⟩, ?_, ?_, ?_⟩
        · show s.origSize ≤ (writePhase2 s.blockSize m1 s.curOffset s.curSize buf L).2.2
          rw [hb]
          omega
        · show (writePhase2 s.blockSize m1 s.curOffset s.curSize buf L).2.2 ≤ U64MAX
          rw [hb]
          omega
        · intro p hp1 hp2
          show blocksByteAt inner s.blockSize s.origSize
            (writePhase2 s.blockSize m1 s.curOffset s.curSize buf L).1 p =
              buf.getD (p - s.curOffset) 0
          exact hf p hp1 hp2
        · intro p hp
          show blocksByteAt inner s.blockSize s.origSize
            (writePhase2 s.blockSize m1 s.curOffset s.curSize buf L).1 p =
              contentsAt inner s p
          exact (hg hvac p hp).trans (hA2 p)
        · intro b hb1 hb2
          show (getBlock? (writePhase2 s.blockSize m1 s.curOffset s.curSize buf L).1 b).isSome = true
          exact he b hb1 (by omega)

/-- The failing write: the offset, size and every visible byte are
unchanged (failure atomicity of the two-phase write). -/
theorem writeCow_err_spec (inner : InnerReader) (s : CowState) (buf : List Nat)
    (s2 : CowState) (e : CowError) (hwf : CowWF inner s)
    (h : writeCow inner s buf = (s2, .error e)) :
    s2.curOffset = s.curOffset ∧ s2.curSize = s.curSize ∧
    s2.blockSize = s.blockSize ∧ s2.origSize = s.origSize ∧
    (∀ p, contentsAt inner s2 p = contentsAt inner s p) ∧
    CowWF inner s2 := by
  obtain ⟨hbs, horig, hsz, hszm, hm⟩ := hwf
  by_cases hbe : buf.isEmpty
  · unfold writeCow at h
    rw [if_pos hbe] at h
    simp only [Prod.mk.injEq] at h
    cases h.2
  · unfold writeCow at h
    rw [if_neg hbe] at h
    by_cases hov : s.curOffset + buf.length > U64MAX
    · rw [if_pos hov] at h
      simp only [Prod.mk.injEq, Except.error.injEq] at h
      obtain ⟨hs2, he2⟩ := h
      subst hs2
      exact ⟨rfl, rfl, rfl, rfl, fun p => rfl, ⟨hbs, horig, hsz, hszm, hm⟩⟩
    · rw [if_neg hov] at h
      dsimp only at h
      set b0 := s.curOffset / s.blockSize with hb0
      set eb := ceilDiv (s.curOffset + buf.length) s.blockSize with heb
      set L := List.range' b0 (eb - b0) with hL
      obtain ⟨hA1, hA2, hA3, hA4⟩ := writePhase1_spec inner s.origSize s.curOffset
        (s.curOffset + buf.length) s.blockSize hbs horig L s.blocks hm
      rcases hph : writePhase1 inner s.origSize s.curOffset
          (s.curOffset + buf.length) s.blockSize s.blocks L with ⟨m1, e1⟩
      rw [hph] at h hA1 hA2 hA3 hA4
      cases e1 with
      | some e2 =>
        simp only [Prod.mk.injEq, Except.error.injEq] at h
        obtain ⟨hs2, he2⟩ := h
        subst hs2
        exact ⟨rfl, rfl, rfl, rfl, fun p => hA2 p, ⟨hbs, horig, hsz, hszm, hA1⟩⟩
      | none =>
        simp only [Prod.mk.injEq] at h
        cases h.2

/-! ## The read call -/

theorem isCowBlock_false_iff (s : CowState) (b : Nat) :
    isCowBlock s b = false ↔
      getBlock? s.blocks b = none ∧ b * s.blockSize < s.origSize := by
  unfold isCowBlock
  rw [Bool.or_eq_false_iff]
  constructor
  · intro ⟨h1, h2⟩
    exact ⟨Option.not_isSome_iff_eq_none.mp (by rw [h1]; simp),
      by have := of_decide_eq_false h2; omega⟩
  · intro ⟨h1, h2⟩
    refine ⟨by rw [h1]; rfl, decide_eq_false (by omega)⟩

theorem isCowBlock_true_of_some (s : CowState) (b : Nat)
    (h : (getBlock? s.blocks b).isSome) : isCowBlock s b = true := by
  unfold isCowBlock
  rw [h]
  rfl

theorem find?_range'_lower (p : Nat → Bool) :
    ∀ (n a x : Nat), (List.range' a n).find? p = some x →
      ∀ y, a ≤ y → y < x → p y = false := by
  intro n
  induction n with
  | zero =>
    intro a x h
    simp [List.range'] at h
  | succ n ih =>
    intro a x h y hy1 hy2
    rw [List.range'_succ] at h
    rw [List.find?_cons] at h
    cases hpa : p a with
    | true =>
      rw [hpa] at h
      simp only [Option.some.injEq] at h
      omega
    | false =>
      rw [hpa] at h
      by_cases hya : y = a
      · subst hya
        exact hpa
      · exact ih (a + 1) x h y (by omega) hy2

theorem readCowBlocksLoop_zero (m : List (Nat × List Nat)) (bs : Nat) :
    ∀ (L : List Nat) (cur : Nat), readCowBlocksLoop m bs cur 0 L = ([], cur) := by
  intro L
  induction L with
  | nil => intro cur; rfl
  | cons b rest ih =>
    intro cur
    simp only [readCowBlocksLoop, Nat.min_def]
    rw [if_pos (by omega)]
    rw [ih]
    cases hg : getBlock? m b <;> simp [subSlice]

theorem readCowBlocksLoop_spec (inner : InnerReader) (origSize bs : Nat)
    (hbs : 0 < bs) (m : List (Nat × List Nat))
    (hm : ∀ b d, getBlock? m b = some d → d.length = bs) :
    ∀ (k b0 cur bufLen : Nat),
      cur / bs = b0 →
      cur + bufLen ≤ (b0 + k) * bs →
      (∀ b, b0 ≤ b → b < b0 + k → getBlock? m b = none → origSize ≤ b * bs) →
      (readCowBlocksLoop m bs cur bufLen (List.range' b0 k)).1.length = bufLen ∧
      (readCowBlocksLoop m bs cur bufLen (List.range' b0 k)).2 = cur + bufLen ∧
      (∀ i, i < bufLen →
        (readCowBlocksLoop m bs cur bufLen (List.range' b0 k)).1.getD i 0 =
          blocksByteAt inner bs origSize m (cur + i)) := by
  intro k
  induction k with
  | zero =>
    intro b0 cur bufLen hdiv hub hvac
    have hlb : b0 * bs ≤ cur := by
      rw [← hdiv]
      exact Nat.div_mul_le_self cur bs
    simp only [Nat.add_zero] at hub
    have hbl0 : bufLen = 0 := by omega
    subst hbl0
    exact ⟨rfl, rfl, fun i hi => by omega⟩
  | succ k ih =>
    intro b0 cur bufLen hdiv hub hvac
    have hlb : b0 * bs ≤ cur := by
      rw [← hdiv]
      exact Nat.div_mul_le_self cur bs
    have hdm : b0 * bs + cur % bs = cur := by
      have h0 := Nat.div_add_mod cur bs
      rw [hdiv, Nat.mul_comm] at h0
      exact h0
    have hml : cur % bs < bs := Nat.mod_lt cur hbs
    have hrange : List.range' b0 (k + 1) = b0 :: List.range' (b0 + 1) k := by
      rw [List.range'_succ]
    set toFill := min bufLen (bs - cur % bs) with htf
    set chunk : List Nat := (match getBlock? m b0 with
      | some data => subSlice data (cur % bs) toFill
      | none => List.replicate toFill 0) with hchunk
    have hstep : readCowBlocksLoop m bs cur bufLen (List.range' b0 (k + 1)) =
        (chunk ++ (readCowBlocksLoop m bs (cur + toFill) (bufLen - toFill)
            (List.range' (b0 + 1) k)).1,
          (readCowBlocksLoop m bs (cur + toFill) (bufLen - toFill)
            (List.range' (b0 + 1) k)).2) := by
      rw [hrange]
      simp only [readCowBlocksLoop]
    have hchlen : chunk.length = toFill := by
      rw [hchunk]
      cases hg : getBlock? m b0 with
      | some data =>
        have hdl := hm b0 data hg
        simp only [subSlice_length, hdl]
        omega
      | none => simp
    have hchbyte : ∀ i, i < toFill →
        chunk.getD i 0 = blocksByteAt inner bs origSize m (cur + i) := by
      intro i hi
      have hpdiv : (cur + i) / bs = b0 :=
        div_eq_of_in_block (cur + i) b0 bs (by omega) (by omega)
      have hpdm : b0 * bs + (cur + i) % bs = cur + i := by
        have h0 := Nat.div_add_mod (cur + i) bs
        rw [hpdiv, Nat.mul_comm] at h0
        exact h0
      have hpmod : (cur + i) % bs = cur % bs + i := by omega
      rw [hchunk]
      cases hg : getBlock? m b0 with
      | some data =>
        have hdl := hm b0 data hg
        rw [blocksByteAt_eq_of_get inner bs origSize m (cur + i) data
          (by rw [hpdiv]; exact hg)]
        rw [subSlice_getD _ _ _ _ hi, if_pos (by omega), hpmod]
      | none =>
        rw [blocksByteAt_eq_of_none inner bs origSize m (cur + i)
          (by rw [hpdiv]; exact hg)]
        have hov := hvac b0 (by omega) (by omega) hg
        rw [if_neg (by omega), getD_replicate]
    by_cases hend : bufLen ≤ bs - cur % bs
    · -- final chunk: the tail loop reads nothing
      have htfe : toFill = bufLen := by omega
      have hz : readCowBlocksLoop m bs (cur + toFill) (bufLen - toFill)
          (List.range' (b0 + 1) k) = ([], cur + toFill) := by
        rw [show bufLen - toFill = 0 by omega]
        exact readCowBlocksLoop_zero m bs _ _
      rw [hstep, hz]
      refine ⟨by simp [hchlen, htfe], by simp [htfe], ?_⟩
      intro i hi
      simp only
      rw [getD_append_left _ _ _ (by omega)]
      exact hchbyte i (by omega)
    · -- the chunk fills this block to its end and the loop continues
      have htfe : toFill = bs - cur % bs := by omega
      have hcur2 : cur + toFill = (b0 + 1) * bs := by
        have : (b0 + 1) * bs = b0 * bs + bs := by ring
        omega
      have hdiv2 : (cur + toFill) / bs = b0 + 1 := by
        rw [hcur2]
        exact Nat.mul_div_cancel (b0 + 1) hbs
      have hub2 : (cur + toFill) + (bufLen - toFill) ≤ (b0 + 1 + k) * bs := by
        have : (b0 + (k + 1)) * bs = (b0 + 1 + k) * bs := by ring
        omega
      have hvac2 : ∀ b, b0 + 1 ≤ b → b < b0 + 1 + k → getBlock? m b = none →
          origSize ≤ b * bs := by
        intro b hb1 hb2
        exact hvac b (by omega) (by omega)
      obtain ⟨ih1, ih2, ih3⟩ := ih (b0 + 1) (cur + toFill) (bufLen - toFill)
        hdiv2 hub2 hvac2
      rw [hstep]
      refine ⟨by simp [hchlen, ih1]; omega, by simp [ih2]; omega, ?_⟩
      intro i hi
      simp only
      by_cases hit : i < toFill
      · rw [getD_append_left _ _ _ (by omega)]
        exact hchbyte i hit
      · rw [getD_append_right _ _ _ (by omega)]
        rw [hchlen, ih3 (i - toFill) (by omega)]
        congr 1
        omega

theorem bool_eq_of_bne_false (a b : Bool) (h : (a != b) = false) : a = b := by
  cases a <;> cases b <;> revert h <;> decide

theorem bool_eq_of_not_bne (a b : Bool) (h : ¬ ((a != b) = true)) : a = b := by
  cases a <;> cases b <;> revert h <;> decide

/-- A successful read call: with an unfaulted inner reader, a read at an
offset below the current size whose start block is mapped or lies below
the original size returns between 1 and bufLen bytes that reflect the
overlay contents at the current offset, and advances only the offset. -/
theorem readCow_ok_spec (inner : InnerReader) (s : CowState) (bufLen : Nat)
    (hwf : CowWF inner s) (hnf : NoFail inner)
    (hoff : s.curOffset < s.curSize) (hbl : 1 ≤ bufLen)
    (hpt : (getBlock? s.blocks (s.curOffset / s.blockSize)).isSome ∨
      s.curOffset < s.origSize) :
    ∃ bytes,
      (readCow inner s bufLen).2 = .ok bytes ∧
      1 ≤ bytes.length ∧ bytes.length ≤ bufLen ∧
      (∀ i, i < bytes.length →
        bytes.getD i 0 = contentsAt inner s (s.curOffset + i)) ∧
      (readCow inner s bufLen).1.blocks = s.blocks ∧
      (readCow inner s bufLen).1.blockSize = s.blockSize ∧
      (readCow inner s bufLen).1.origSize = s.origSize ∧
      (readCow inner s bufLen).1.curSize = s.curSize ∧
      (readCow inner s bufLen).1.curOffset = s.curOffset + bytes.length := by
  obtain ⟨hbs, horig, hsz, hszm, hm⟩ := hwf
  have hguard : ¬(bufLen = 0 ∨ s.curOffset ≥ s.curSize) := by omega
  unfold readCow
  rw [if_neg hguard]
  dsimp only
  set sb := s.curOffset / s.blockSize with hsb
  set br := min (s.curSize - s.curOffset) bufLen with hbr
  set eb0 := ceilDiv (s.curOffset + br) s.blockSize with heb0
  set fic := isCowBlock s sb with hfic
  set ebv := ((List.range' (sb + 1) (eb0 - (sb + 1))).find?
    (fun b => isCowBlock s b != fic)).getD eb0 with hebv
  set eo := (if ebv * s.blockSize > U64MAX then s.curSize
    else min (ebv * s.blockSize) s.curSize) with heo
  set br2 := min (eo - s.curOffset) bufLen with hbr2
  have hdm : sb * s.blockSize + s.curOffset % s.blockSize = s.curOffset := by
    have h0 := Nat.div_add_mod s.curOffset s.blockSize
    rw [← hsb, Nat.mul_comm] at h0
    exact h0
  have hml : s.curOffset % s.blockSize < s.blockSize := Nat.mod_lt _ hbs
  have hbr1 : 1 ≤ br := by omega
  have heb0ge : sb + 1 ≤ eb0 := by
    rw [heb0]
    show sb + 1 ≤ (s.curOffset + br + s.blockSize - 1) / s.blockSize
    rw [Nat.le_div_iff_mul_le hbs]
    have hr : (sb + 1) * s.blockSize = sb * s.blockSize + s.blockSize := by ring
    omega
  have heb1 : sb + 1 ≤ ebv := by
    rcases hfind : (List.range' (sb + 1) (eb0 - (sb + 1))).find?
        (fun b => isCowBlock s b != fic) with _ | x
    · rw [hebv, hfind]
      exact heb0ge
    · have hx := List.mem_of_find?_eq_some hfind
      rw [List.mem_range'_1] at hx
      rw [hebv, hfind]
      exact hx.1
  have hclass : ∀ b, sb ≤ b → b < ebv → isCowBlock s b = fic := by
    intro b hb1 hb2
    rcases Nat.lt_or_ge sb b with hbl2 | hble2
    · rcases hfind : (List.range' (sb + 1) (eb0 - (sb + 1))).find?
          (fun b2 => isCowBlock s b2 != fic) with _ | x
      · have hee : ebv = eb0 := by rw [hebv, hfind]; rfl
        have hmem : b ∈ List.range' (sb + 1) (eb0 - (sb + 1)) := by
          rw [List.mem_range'_1]
          omega
        have hnp := List.find?_eq_none.mp hfind b hmem
        exact bool_eq_of_not_bne _ _ hnp
      · have hxe : ebv = x := by rw [hebv, hfind]; rfl
        have hp := find?_range'_lower (fun b2 => isCowBlock s b2 != fic)
          (eb0 - (sb + 1)) (sb + 1) x hfind b (by omega) (by omega)
        exact bool_eq_of_bne_false _ _ hp
    · have hbeq : b = sb := by omega
      rw [hbeq, ← hfic]
  have hA : sb * s.blockSize + s.blockSize ≤ ebv * s.blockSize := by
    have h1 : (sb + 1) * s.blockSize ≤ ebv * s.blockSize :=
      Nat.mul_le_mul heb1 (Nat.le_refl s.blockSize)
    have h2 : (sb + 1) * s.blockSize = sb * s.blockSize + s.blockSize := by ring
    omega
  have heopair : s.curOffset < eo ∧ eo ≤ ebv * s.blockSize := by
    by_cases hovf : ebv * s.blockSize > U64MAX
    · rw [heo, if_pos hovf]
      omega
    · rw [heo, if_neg hovf]
      omega
  obtain ⟨hcurlt, heoA⟩ := heopair
  have hbrge : 1 ≤ br2 := by omega
  have hbub : br2 ≤ bufLen := by omega
  have hub2 : s.curOffset + br2 ≤ ebv * s.blockSize := by omega
  have hebeq : sb + (ebv - sb) = ebv := by omega
  by_cases hficv : fic = true
  · -- the first block is served from memory (or lies beyond the original size)
    rw [if_pos hficv]
    have hvacL : ∀ b, sb ≤ b → b < sb + (ebv - sb) → getBlock? s.blocks b = none →
        s.origSize ≤ b * s.blockSize := by
      intro b hb1 hb2 hnone
      have hcb := hclass b hb1 (by omega)
      rw [hficv] at hcb
      simp only [isCowBlock, hnone, Option.isSome_none, Bool.false_or,
        decide_eq_true_eq] at hcb
      exact hcb
    obtain ⟨hl1, hl2, hl3⟩ := readCowBlocksLoop_spec inner s.origSize s.blockSize
      hbs s.blocks hm (ebv - sb) sb s.curOffset br2 hsb.symm
      (by rw [hebeq]; exact hub2) hvacL
    rcases hloop : readCowBlocksLoop s.blocks s.blockSize s.curOffset br2
        (List.range' sb (ebv - sb)) with ⟨bytes0, newOff⟩
    rw [hloop] at hl1 hl2 hl3
    dsimp only at hl1 hl2 hl3 ⊢
    refine ⟨bytes0, rfl, ?_, ?_, ?_, rfl, rfl, rfl, rfl, ?_⟩
    · omega
    · omega
    · intro i hi
      simp only [contentsAt]
      exact hl3 i (by omega)
    · omega
  · -- pass-through: the whole capped range is original data
    rw [if_neg hficv]
    have hficf : fic = false := by
      rcases Bool.eq_false_or_eq_true fic with h | h
      · exact absurd h hficv
      · exact h
    have hfcl := (isCowBlock_false_iff s sb).mp (by rw [← hfic]; exact hficf)
    have hcuror : s.curOffset < s.origSize := by
      rcases hpt with hl | hr
      · rw [hfcl.1] at hl
        simp at hl
      · exact hr
    set tr := min (s.origSize - s.curOffset) br2 with htr
    have hir : innerRead inner s.curOffset tr =
        .ok (subSlice inner.data s.curOffset tr) := by
      simp [innerRead, hnf s.curOffset]
    rw [hir]
    dsimp only
    have hblen : (subSlice inner.data s.curOffset tr).length = tr := by
      rw [subSlice_length]
      omega
    rw [hblen]
    rw [if_neg (show ¬(s.curOffset + tr = s.origSize ∧ tr > tr) from
      fun hx => absurd hx.2 (lt_irrefl tr))]
    dsimp only
    have htr1 : 1 ≤ tr := by omega
    refine ⟨subSlice inner.data s.curOffset tr, rfl, ?_, ?_, ?_, rfl, rfl, rfl,
      rfl, ?_⟩
    · rw [hblen]
      omega
    · rw [hblen]
      omega
    · intro i hi
      rw [hblen] at hi
      rw [subSlice_getD inner.data s.curOffset tr i hi, if_pos (by omega)]
      have hble2 : sb ≤ (s.curOffset + i) / s.blockSize := by
        rw [hsb]
        exact Nat.div_le_div_right (Nat.le_add_right _ _)
      have hblt2 : (s.curOffset + i) / s.blockSize < ebv := by
        rw [Nat.div_lt_iff_lt_mul hbs]
        omega
      have hcb := hclass _ hble2 hblt2
      rw [hficf] at hcb
      have hn2 := ((isCowBlock_false_iff s _).mp hcb).1
      simp only [contentsAt]
      rw [blocksByteAt_eq_of_none inner s.blockSize s.origSize s.blocks _ hn2,
        if_pos (by omega)]
    · rw [hblen]

/-- The short-read-tolerant read loop: with enough fuel, a range below
the current size all of whose positions are mapped or below the original
size is read completely and reflects the overlay contents. -/
theorem readLoopAux_spec (inner : InnerReader) :
    ∀ (fuel : Nat) (s : CowState) (len : Nat),
      CowWF inner s → NoFail inner → len ≤ fuel →
      s.curOffset + len ≤ s.curSize →
      (∀ q, s.curOffset ≤ q → q < s.curOffset + len →
        (getBlock? s.blocks (q / s.blockSize)).isSome ∨ q < s.origSize) →
      ∃ out, readLoopAux inner fuel s len = some out ∧
        out.length = len ∧
        ∀ i, i < len → out.getD i 0 = contentsAt inner s (s.curOffset + i) := by
  intro fuel
  induction fuel with
  | zero =>
    intro s len hwf hnf hfl hsum hcov
    have hl0 : len = 0 := by omega
    subst hl0
    exact ⟨[], rfl, rfl, fun i hi => by omega⟩
  | succ fuel ih =>
    intro s len hwf hnf hfl hsum hcov
    by_cases hl0 : len = 0
    · subst hl0
      exact ⟨[], rfl, rfl, fun i hi => by omega⟩
    · obtain ⟨bytes, hok, h1, h2, h3, hb, hbsz, horg, hcs, hco⟩ :=
        readCow_ok_spec inner s len hwf hnf (by omega) (by omega)
          (hcov s.curOffset (Nat.le_refl _) (by omega))
      rcases hrc : readCow inner s len with ⟨s1, r⟩
      rw [hrc] at hok hb hbsz horg hcs hco
      dsimp only at hok hb hbsz horg hcs hco
      subst hok
      have hwf1 : CowWF inner s1 := by
        unfold CowWF
        rw [hb, hbsz, horg, hcs]
        exact hwf
      have hbne : bytes.isEmpty = false := by
        cases bytes with
        | nil => simp at h1
        | cons a t => rfl
      have hcov1 : ∀ q, s1.curOffset ≤ q → q < s1.curOffset + (len - bytes.length) →
          (getBlock? s1.blocks (q / s1.blockSize)).isSome ∨ q < s1.origSize := by
        intro q hq1 hq2
        rw [hb, hbsz, horg]
        rw [hco] at hq1 hq2
        exact hcov q (by omega) (by omega)
      obtain ⟨out1, ho1, ho2, ho3⟩ := ih s1 (len - bytes.length) hwf1 hnf
        (by omega) (by rw [hco, hcs]; omega) hcov1
      refine ⟨bytes ++ out1, ?_, ?_, ?_⟩
      · show readLoopAux inner (fuel + 1) s len = some (bytes ++ out1)
        simp only [readLoopAux]
        rw [if_neg hl0, hrc]
        dsimp only
        rw [hbne, if_neg (show ¬(false = true) by simp), ho1]
      · rw [List.length_append]
        omega
      · intro i hi
        by_cases hib : i < bytes.length
        · rw [getD_append_left _ _ _ hib]
          exact h3 i hib
        · rw [getD_append_right _ _ _ (by omega)]
          rw [ho3 (i - bytes.length) (by omega)]
          simp only [contentsAt]
          rw [hb, hbsz, horg, hco]
          congr 1
          omega

/-- Seek to a position and read exactly: a range below the current size
all of whose positions are mapped or below the original size is
returned in full and reflects the overlay contents. -/
theorem readExactFrom_spec (inner : InnerReader) (s : CowState) (pos len : Nat)
    (hwf : CowWF inner s) (hnf : NoFail inner)
    (hsum : pos + len ≤ s.curSize)
    (hcov : ∀ q, pos ≤ q → q < pos + len →
      (getBlock? s.blocks (q / s.blockSize)).isSome ∨ q < s.origSize) :
    ∃ out, readExactFrom inner s pos len = some out ∧ out.length = len ∧
      ∀ i, i < len → out.getD i 0 = contentsAt inner s (pos + i) := by
  unfold readExactFrom seekCow
  dsimp only
  by_cases hsp : s.curOffset ≠ pos
  · rw [if_pos hsp]
    dsimp only
    obtain ⟨out, h1, h2, h3⟩ := readLoopAux_spec inner len
      { s with curOffset := pos, needSeek := true } len hwf hnf (Nat.le_refl len)
      hsum hcov
    exact ⟨out, h1, h2, h3⟩
  · rw [if_neg hsp]
    dsimp only
    have hep : s.curOffset = pos := not_not.mp hsp
    obtain ⟨out, h1, h2, h3⟩ := readLoopAux_spec inner len s len hwf hnf
      (Nat.le_refl len) (by rw [hep]; exact hsum) (by rw [hep]; exact hcov)
    refine ⟨out, h1, h2, ?_⟩
    intro i hi
    rw [h3 i hi, hep]

theorem list_eq_of_getD (as2 bs2 : List Nat) (hlen : as2.length = bs2.length)
    (h : ∀ i, i < as2.length → as2.getD i 0 = bs2.getD i 0) : as2 = bs2 := by
  apply List.ext_getElem hlen
  intro i h1 h2
  have hx := h i h1
  rwa [List.getD_eq_getElem _ _ h1, List.getD_eq_getElem _ _ h2] at hx

/-- C5: MemoryCowFile write-then-read.  After a successful write of W at
the overlay's current offset o, seeking back to o and reading |W| bytes
returns exactly W; and a one-byte read at any position of the original
data whose block the writes so far left out of the block map returns the
byte the inner reader holds at that position. -/
theorem c5_cow_write_then_read (inner : InnerReader) (s : CowState)
    (W : List Nat) (s2 : CowState) (n : Nat)
    (hwf : CowWF inner s) (hnf : NoFail inner)
    (hw : writeCow inner s W = (s2, .ok n)) :
    readExactFrom inner s2 s.curOffset W.length = some W ∧
    ∀ p, p < s.origSize → getBlock? s2.blocks (p / s.blockSize) = none →
      readExactFrom inner s2 p 1 = some [inner.data.getD p 0] := by
  obtain ⟨hbs, horig, hszc, hszm, hmwf⟩ := hwf
  obtain ⟨hn, hbsz2, horg2, hemp, hne⟩ :=
    writeCow_ok_spec inner s W s2 n ⟨hbs, horig, hszc, hszm, hmwf⟩ hw
  have hwfkey : CowWF inner s2 ∧ s.curSize ≤ s2.curSize := by
    by_cases hWe : W = []
    · rw [hemp hWe]
      exact ⟨⟨hbs, horig, hszc, hszm, hmwf⟩, Nat.le_refl _⟩
    · obtain ⟨_, hsize2, hwf2, _, _, _⟩ := hne hWe
      refine ⟨hwf2, ?_⟩
      rw [hsize2]
      omega
  refine ⟨?_, ?_⟩
  · by_cases hWe : W = []
    · rw [hemp hWe, hWe]
      show readExactFrom inner s s.curOffset 0 = some []
      unfold readExactFrom seekCow
      dsimp only
      rw [if_neg (show ¬(s.curOffset ≠ s.curOffset) from fun hc => hc rfl)]
      rfl
    · obtain ⟨hoff2, hsize2, hwf2, hin, hout, htouch⟩ := hne hWe
      have hlen1 : 1 ≤ W.length := by
        cases W with
        | nil => exact absurd rfl hWe
        | cons a t => simp
      have hcovA : ∀ q, s.curOffset ≤ q → q < s.curOffset + W.length →
          (getBlock? s2.blocks (q / s2.blockSize)).isSome ∨ q < s2.origSize := by
        intro q hq1 hq2
        left
        rw [hbsz2]
        refine htouch (q / s.blockSize) (Nat.div_le_div_right hq1) ?_
        rw [Nat.div_lt_iff_lt_mul hbs]
        have hub := le_ceilDiv_mul (s.curOffset + W.length) s.blockSize hbs
        omega
      obtain ⟨out, h1, h2, h3⟩ := readExactFrom_spec inner s2 s.curOffset
        W.length hwf2 hnf (by rw [hsize2]; omega) hcovA
      rw [h1]
      have hoeq : out = W := by
        apply list_eq_of_getD out W (by rw [h2])
        intro i hi
        rw [h2] at hi
        rw [h3 i hi, hin (s.curOffset + i) (by omega) (by omega)]
        congr 1
        omega
      rw [hoeq]
  · intro p hpo hpnone
    obtain ⟨out, h1, h2, h3⟩ := readExactFrom_spec inner s2 p 1 hwfkey.1 hnf
      (by omega)
      (by intro q hq1 hq2; right; rw [horg2]; omega)
    rw [h1]
    have hout : out = [inner.data.getD p 0] := by
      apply list_eq_of_getD out _ (by rw [h2]; rfl)
      intro i hi
      rw [h2] at hi
      have hi0 : i = 0 := by omega
      subst hi0
      rw [h3 0 (by omega), Nat.add_zero]
      simp only [contentsAt]
      rw [hbsz2, horg2]
      rw [blocksByteAt_eq_of_none inner s.blockSize s.origSize s2.blocks p hpnone]
      rw [if_pos hpo]
      rfl
    rw [hout]

/-- Witness: on an 8-byte original with 4-byte blocks, writing bytes
9, 9 at offset 2 reads back 9, 9 from offset 2, while the untouched
byte at position 5 still reads the original value 6. -/
theorem c5_cow_write_then_read_witness :
    readExactFrom exInnerC5 (writeCow exInnerC5 exCowC5 [9, 9]).1 2 2 =
      some [9, 9] ∧
    readExactFrom exInnerC5 (writeCow exInnerC5 exCowC5 [9, 9]).1 5 1 =
      some [6] := by
  have hwf : CowWF exInnerC5 exCowC5 :=
    ⟨by decide, rfl, by decide, by decide, fun b d h => by simp [getBlock?] at h⟩
  have h := c5_cow_write_then_read exInnerC5 exCowC5 [9, 9]
    (writeCow exInnerC5 exCowC5 [9, 9]).1 2 hwf (fun p => rfl) (by rfl)
  exact ⟨h.1, h.2 5 (by decide) (by rfl)⟩

/-- C4: MemoryCowFile write is all-or-nothing.  A successful write
reports the full buffer length (no short writes), and a failed write —
in particular one whose copy-on-write read of an original block fails —
leaves the offset, the size and every visible byte of the overlay
unchanged. -/
theorem c4_cow_write_all_or_nothing (inner : InnerReader) (s : CowState)
    (buf : List Nat) (s2 : CowState) (r : Except CowError Nat)
    (hwf : CowWF inner s) (hw : writeCow inner s buf = (s2, r)) :
    (∀ n, r = .ok n → n = buf.length) ∧
    (∀ e, r = .error e →
      s2.curOffset = s.curOffset ∧ s2.curSize = s.curSize ∧
      ∀ p, contentsAt inner s2 p = contentsAt inner s p) := by
  constructor
  · intro n hr
    subst hr
    exact (writeCow_ok_spec inner s buf s2 n hwf hw).1
  · intro e hr
    subst hr
    obtain ⟨h1, h2, _, _, h5, _⟩ := writeCow_err_spec inner s buf s2 e hwf hw
    exact ⟨h1, h2, h5⟩

/-- Witness: with the faulted inner reader, writing three bytes at
offset 2 fails with an I/O error, and the overlay still shows offset 2
and the original byte 3 at position 2. -/
theorem c4_cow_write_all_or_nothing_witness :
    (writeCow exInnF exCowF [9, 9, 9]).2 = .error .ioError ∧
    (writeCow exInnF exCowF [9, 9, 9]).1.curOffset = 2 ∧
    contentsAt exInnF (writeCow exInnF exCowF [9, 9, 9]).1 2 =
      contentsAt exInnF exCowF 2 := by
  have hwf : CowWF exInnF exCowF :=
    ⟨by decide, rfl, by decide, by decide, fun b d h => by simp [getBlock?] at h⟩
  have h := c4_cow_write_all_or_nothing exInnF exCowF [9, 9, 9]
    (writeCow exInnF exCowF [9, 9, 9]).1 (writeCow exInnF exCowF [9, 9, 9]).2
    hwf rfl
  obtain ⟨h1, h2, h3⟩ := h.2 .ioError (by rfl)
  exact ⟨by rfl, h1, h3 2⟩

theorem remainingDebt_append (ps : Nat → Nat → Nat)
    (a b : List DownloadParams) :
    remainingDebt ps (a ++ b) = remainingDebt ps a + remainingDebt ps b := by
  simp [remainingDebt]

theorem pieceScanList_accounting (disk : Disk) (ps : Nat → Nat → Nat)
    (dir : Option String) (fi : FileInfo) (fIdx : Nat) :
    ∀ l : List Nat,
      (∀ dlI, dlI ∈ l →
        (disk.stat? dir (downloadName fi dlI) = none ∨
          disk.stat? dir (downloadName fi dlI) = some (ps fIdx dlI)) ∧
        (disk.stat? dir (downloadName fi dlI ++ "." ++ VERIFY_EXT) = none ∨
          disk.stat? dir (downloadName fi dlI ++ "." ++ VERIFY_EXT) =
            some (ps fIdx dlI)) ∧
        (disk.stat? dir
            (downloadName fi dlI ++ "." ++ DOWNLOAD_EXT)).getD 0 ≤
          ps fIdx dlI) →
      (pieceScanList disk dir fi fIdx l).1 +
        remainingDebt ps (pieceScanList disk dir fi fIdx l).2 =
        (l.map (ps fIdx)).sum := by
  intro l
  induction l with
  | nil =>
    intro _
    rfl
  | cons dlI rest ih =>
    intro h
    obtain ⟨h1, h2, h3⟩ := h dlI (by simp)
    have ht := ih (fun x hx => h x (by simp [hx]))
    have hps : (pieceScan disk dir fi dlI).1 +
        taskDebt ps fIdx dlI (pieceScan disk dir fi dlI).2 = ps fIdx dlI := by
      unfold pieceScan
      rcases hs1 : disk.stat? dir (downloadName fi dlI) with _ | m
      · rcases hs2 : (if isSplit fi then none
            else disk.stat? dir (downloadName fi dlI ++ "." ++ VERIFY_EXT))
            with _ | m2
        · dsimp only
          simp only [taskDebt]
          omega
        · dsimp only
          simp only [taskDebt]
          have hm2 : m2 = ps fIdx dlI := by
            by_cases hsp : isSplit fi = true
            · rw [if_pos hsp] at hs2
              simp at hs2
            · rw [if_neg hsp] at hs2
              rcases h2 with hn | he
              · rw [hs2] at hn
                simp at hn
              · rw [hs2] at he
                simp only [Option.some.injEq] at he
                exact he
          omega
      · dsimp only
        simp only [taskDebt]
        have hme : m = ps fIdx dlI := by
          rcases h1 with hn | he
          · rw [hs1] at hn
            simp at hn
          · rw [hs1] at he
            simp only [Option.some.injEq] at he
            exact he
        omega
    have hone : remainingDebt ps (match (pieceScan disk dir fi dlI).2 with
        | some so =>
          [{ fileIndex := fIdx, downloadIndex := dlI, startOffset := so }]
        | none => []) =
        taskDebt ps fIdx dlI (pieceScan disk dir fi dlI).2 := by
      rcases (pieceScan disk dir fi dlI).2 with _ | so
      · rfl
      · simp [remainingDebt, taskDebt]
    simp only [pieceScanList, List.map_cons, List.sum_cons, remainingDebt_append]
    rw [hone]
    omega

theorem fileScanIn_accounting (disk : Disk) (ps : Nat → Nat → Nat)
    (dir : Option String) (fi : FileInfo) (fIdx : Nat)
    (hsum : ((List.range (downloadCount fi)).map (ps fIdx)).sum = downloadSize fi)
    (hp : ∀ dlI, dlI < downloadCount fi →
      (disk.stat? dir (downloadName fi dlI) = none ∨
        disk.stat? dir (downloadName fi dlI) = some (ps fIdx dlI)) ∧
      (disk.stat? dir (downloadName fi dlI ++ "." ++ VERIFY_EXT) = none ∨
        disk.stat? dir (downloadName fi dlI ++ "." ++ VERIFY_EXT) =
          some (ps fIdx dlI)) ∧
      (disk.stat? dir
          (downloadName fi dlI ++ "." ++ DOWNLOAD_EXT)).getD 0 ≤ ps fIdx dlI) :
    (fileScanIn disk dir fi fIdx).dlB +
      remainingDebt ps (fileScanIn disk dir fi fIdx).tasks = downloadSize fi := by
  unfold fileScanIn
  by_cases hout : (disk.stat? dir fi.name).isSome = true
  · rw [if_pos hout]
    show downloadSize fi + remainingDebt ps [] = downloadSize fi
    simp [remainingDebt]
  · rw [if_neg hout]
    show (pieceScanList disk dir fi fIdx (List.range (downloadCount fi))).1 +
      remainingDebt ps
        (pieceScanList disk dir fi fIdx (List.range (downloadCount fi))).2 =
      downloadSize fi
    rw [pieceScanList_accounting disk ps dir fi fIdx
      (List.range (downloadCount fi))
      (fun dlI hmem => hp dlI (List.mem_range.mp hmem))]
    exact hsum

theorem fileScan_accounting (disk : Disk) (ps : Nat → Nat → Nat)
    (fi : FileInfo) (fIdx : Nat) (hg : GoodFile disk ps fIdx fi) :
    (fileScan disk fi fIdx).dlB +
      remainingDebt ps (fileScan disk fi fIdx).tasks = downloadSize fi := by
  obtain ⟨hsum, hp⟩ := hg
  unfold fileScan
  rcases hdir : fi.directory with _ | name
  · dsimp only
    rw [hdir] at hp
    exact fileScanIn_accounting disk ps none fi fIdx hsum hp
  · dsimp only
    rw [hdir] at hp
    by_cases hde : disk.dirExists name = true
    · rw [if_pos hde]
      exact fileScanIn_accounting disk ps (some name) fi fIdx hsum hp
    · rw [if_neg hde]
      show 0 + remainingDebt ps ((List.range (downloadCount fi)).map
        (fun dlI =>
          { fileIndex := fIdx, downloadIndex := dlI, startOffset := 0 })) =
        downloadSize fi
      rw [Nat.zero_add]
      unfold remainingDebt
      rw [List.map_map]
      have hcongr : ((fun t : DownloadParams =>
          ps t.fileIndex t.downloadIndex - t.startOffset) ∘
          (fun dlI => ({ fileIndex := fIdx, downloadIndex := dlI,
                         startOffset := 0 } : DownloadParams))) = ps fIdx := by
        funext dlI
        simp
      rw [hcongr]
      exact hsum

theorem fileScan_counts (disk : Disk) (fi : FileInfo) (fIdx : Nat) :
    (fileScan disk fi fIdx).remain = (fileScan disk fi fIdx).tasks.length := by
  unfold fileScan
  rcases fi.directory with _ | name
  · dsimp only
    unfold fileScanIn
    by_cases hout : (disk.stat? none fi.name).isSome = true
    · rw [if_pos hout]
      rfl
    · rw [if_neg hout]
  · dsimp only
    by_cases hde : disk.dirExists name = true
    · rw [if_pos hde]
      unfold fileScanIn
      by_cases hout : (disk.stat? (some name) fi.name).isSome = true
      · rw [if_pos hout]
        rfl
      · rw [if_neg hout]
    · rw [if_neg hde]
      show downloadCount fi = ((List.range (downloadCount fi)).map _).length
      rw [List.length_map, List.length_range]

theorem computeAux_counts (disk : Disk) :
    ∀ (k : Nat) (files : List FileInfo),
      (computeAux disk k files).dlRemain.sum =
        (computeAux disk k files).dlTasks.length := by
  intro k files
  induction files generalizing k with
  | nil => rfl
  | cons fi rest ih =>
    simp only [computeAux]
    rw [List.sum_cons, List.length_append, fileScan_counts, ih]

theorem computeAux_accounting (disk : Disk) (ps : Nat → Nat → Nat) :
    ∀ (k : Nat) (files : List FileInfo), GoodFiles disk ps k files →
      (computeAux disk k files).dlBytes +
        remainingDebt ps (computeAux disk k files).dlTasks =
        (files.map downloadSize).sum := by
  intro k files
  induction files generalizing k with
  | nil =>
    intro _
    rfl
  | cons fi rest ih =>
    intro hg
    simp only [GoodFiles] at hg
    obtain ⟨hgf, hgrest⟩ := hg
    simp only [computeAux]
    rw [List.map_cons, List.sum_cons, remainingDebt_append]
    have hf := fileScan_accounting disk ps fi k hgf
    have hr := ih (k + 1) hgrest
    omega

/-- C3 counterexample: on a manifest with one unsplit 10-byte file and
a directory holding only a stale 999-byte verify marker for it, the
planner finishes with an empty download queue but counts 999 downloaded
bytes, while the piece sizes sum to 10 — the accounting identity of the
claim fails for this manifest and directory state. -/
theorem c3_planner_claim_counterexample :
    (computeInitialState exDiskC3bad [exFiC3bad]).dlTasks = [] ∧
    (computeInitialState exDiskC3bad [exFiC3bad]).dlBytes = 999 ∧
    ([exFiC3bad].map downloadSize).sum = 10 :=
  ⟨rfl, rfl, rfl⟩

/-- C3 amended: when the on-disk sizes are consistent with the true
piece sizes (finished pieces and verify markers have exactly their
piece's size, partial downloads at most it, and the piece sizes of a
file sum to its download size), the planner satisfies
downloaded_bytes + (bytes still to download over the queue) = sum of
all download sizes; and unconditionally the per-file remaining counts
sum to the download queue's length. -/
theorem c3_planner_accounting_amended (disk : Disk) (files : List FileInfo)
    (ps : Nat → Nat → Nat) (hgood : GoodFiles disk ps 0 files) :
    (computeInitialState disk files).dlBytes +
      remainingDebt ps (computeInitialState disk files).dlTasks =
      (files.map downloadSize).sum ∧
    (computeInitialState disk files).dlRemain.sum =
      (computeInitialState disk files).dlTasks.length :=
  ⟨computeAux_accounting disk ps 0 files hgood, computeAux_counts disk 0 files⟩

/-- Witness: on the two-piece split file with piece 0 finished (60
bytes) and 15 bytes of piece 1 on disk, the planner counts 75 bytes,
queues one task with start offset 15, and the amended accounting holds:
75 + 25 = 100, and the remaining counts sum to the queue length. -/
theorem c3_planner_accounting_amended_witness :
    GoodFiles exDiskC3w exPsC3w 0 [exFiC3w] ∧
    (computeInitialState exDiskC3w [exFiC3w]).dlBytes = 75 ∧
    (computeInitialState exDiskC3w [exFiC3w]).dlTasks =
      [{ fileIndex := 0, downloadIndex := 1, startOffset := 15 }] ∧
    (computeInitialState exDiskC3w [exFiC3w]).dlBytes +
      remainingDebt exPsC3w (computeInitialState exDiskC3w [exFiC3w]).dlTasks =
      ([exFiC3w].map downloadSize).sum ∧
    (computeInitialState exDiskC3w [exFiC3w]).dlRemain.sum =
      (computeInitialState exDiskC3w [exFiC3w]).dlTasks.length := by
  have hg : GoodFiles exDiskC3w exPsC3w 0 [exFiC3w] := by
    simp only [GoodFiles]
    exact ⟨by decide, trivial⟩
  have h := c3_planner_accounting_amended exDiskC3w [exFiC3w] exPsC3w hg
  exact ⟨hg, by rfl, by rfl, h.1, h.2⟩

end Nudl
